import Mathlib

/-!
Shallow embedding of the core algorithms of `scylla-gdb.py` (a gdb-based
memory-forensics engine): the histogram utility, the LSA object-descriptor
decoder, the span table, the small-pool pointer classifier, the heap-profile
tree collapsing pass, the fiber walker and the object-graph builder.

Machine integers are modelled as `Nat` (Python integers are unbounded, and
the gdb values involved are unsigned addresses/sizes).  Memory is modelled as
a read oracle `Nat → Nat` (byte reads for the descriptor decoder, machine-word
reads elsewhere).  Loops whose termination depends on the inspected process's
memory contents (free-list walks, the descriptor continuation loop, the fiber
recursion, the BFS while-loop) take an explicit fuel argument and return
`Option`/a cut-off result; the source code would simply not terminate (or
fault) on such inputs.
-/

namespace ScyllaGdb

/-! ### Histogram (`histogram.__init__` / `add` / `__getitem__` / `__len__`)

The Python constructor is `def __init__(self, counts = defaultdict(int), ...)`.
The default argument `defaultdict(int)` is evaluated once, when the module is
loaded, so every instance constructed without an explicit `counts` argument
stores a reference to that single module-level dictionary.  We model the
object store explicitly: `Store` is the list of dictionary objects, an
instance holds the index of its dictionary, and the module-level default
dictionary is object `0` of the initial store. -/

/-- A Python dict from `Nat` keys to `Nat` values, in insertion order. -/
abbrev PyDict := List (Nat × Nat)

/-- `d[k]` read with a `defaultdict(int)`-style default of `0` for a key that
is present-or-absent; the callers below only read keys that are present. -/
def PyDict.get (d : PyDict) (k : Nat) : Nat :=
  match List.find? (fun p => p.1 = k) d with
  | some p => p.2
  | none => 0

/-- `d[k] += 1` on a `defaultdict(int)`: increment if present, else insert
`1` (read of the missing key yields the default `0`, then `0 + 1` is stored,
appended in insertion order). -/
def PyDict.incr (d : PyDict) (k : Nat) : PyDict :=
  if (List.find? (fun p => p.1 = k) d).isSome then
    List.map (fun p => if p.1 = k then (p.1, p.2 + 1) else p) d
  else
    d ++ [(k, 1)]

/-- The object store: dictionary objects indexed by position. -/
abbrev Store := List PyDict

/-- A `histogram` instance: it holds a reference (index into the store) to its
`_counts` dictionary. -/
structure Histogram where
  counts_ref : Nat

/-- The store right after the module is loaded: the single shared default
`defaultdict(int)` is object `0` and is empty. -/
def initialStore : Store := [[]]

/-- `histogram()` with no `counts` argument: the instance references the
module-level default dictionary, object `0`.  Every such construction yields
a reference to the same object — this is exactly Python's semantics for a
mutable default argument. -/
def histogramDefault : Histogram := ⟨0⟩

/-- `histogram.add`: `self._counts[item] += 1`. -/
def histogramAdd (st : Store) (h : Histogram) (item : Nat) : Store :=
  List.set st h.counts_ref (PyDict.incr (List.getD st h.counts_ref []) item)

/-- `histogram.__getitem__`: `return self._counts[item]`. -/
def histogramGet (st : Store) (h : Histogram) (item : Nat) : Nat :=
  PyDict.get (List.getD st h.counts_ref []) item

/-- `histogram.__len__`: `return len(self._counts)`. -/
def histogramLen (st : Store) (h : Histogram) : Nat :=
  (List.getD st h.counts_ref []).length

/-! ### LSA object descriptors (`lsa_object_descriptor`)

`decode` reads a byte-aligned variable-length integer at `pos`:
```
b = pos.dereference() & 0xff; pos += 1
if not (b & 0x40): raise Exception(...)
value = b & 0x3f; shift = 0
while not (b & 0x80):
    shift += 6
    b = pos.dereference() & 0xff; pos += 1
    value |= (b & 0x3f) << shift
return lsa_object_descriptor(value, start_pos, pos)
```
Memory is a byte oracle `mem : Nat → Nat`; the while-loop terminates only
when a byte with bit 7 set is reached, so the loop takes fuel and a fuel-out
is reported as a distinct outcome (in the running process the loop would walk
off into adjacent memory). -/

structure lsa_object_descriptor where
  value : Nat
  desc_pos : Nat
  obj_pos : Nat
  deriving Repr, DecidableEq

/-- Outcome of `lsa_object_descriptor.decode`: success, the raised
`Exception` for a first byte without bit `0x40` (the only raise in `decode`),
or fuel exhaustion of the continuation loop. -/
inductive DecodeResult where
  | ok (d : lsa_object_descriptor)
  | error
  | fuelOut
  deriving Repr, DecidableEq

/-- The `while not (b & 0x80)` continuation loop of `decode`.  `b` is the
byte consumed last, `pos` is one past it, `value`/`shift` are the
accumulator state. -/
def decodeLoop (mem : Nat → Nat) (start_pos : Nat) :
    Nat → Nat → Nat → Nat → Nat → DecodeResult
  | fuel, pos, value, shift, b =>
    if b &&& 0x80 ≠ 0 then .ok ⟨value, start_pos, pos⟩
    else
      match fuel with
      | 0 => .fuelOut
      | fuel + 1 =>
        let shift2 := shift + 6
        let b2 := mem pos &&& 0xff
        decodeLoop mem start_pos fuel (pos + 1)
          (value ||| ((b2 &&& 0x3f) <<< shift2)) shift2 b2

/-- `lsa_object_descriptor.decode` at byte position `pos`; here
`start_pos = pos` and `b = mem pos &&& 0xff` is the first byte. -/
def decode (mem : Nat → Nat) (fuel pos : Nat) : DecodeResult :=
  if (mem pos &&& 0xff) &&& 0x40 = 0 then .error
  else decodeLoop mem pos fuel (pos + 1) ((mem pos &&& 0xff) &&& 0x3f) 0
    (mem pos &&& 0xff)

/-- `lsa_object_descriptor.is_live`: `(self.value & 1) == 1`. -/
def lsa_object_descriptor.is_live (d : lsa_object_descriptor) : Bool :=
  d.value &&& 1 = 1

/-- `lsa_object_descriptor.dead_size`: `self.value / 2` (gdb `Value`
arithmetic, i.e. integer division). -/
def lsa_object_descriptor.dead_size (d : lsa_object_descriptor) : Nat :=
  d.value / 2

/-- `lsa_object_descriptor.end_pos`.  For a live object the size comes from
the migrator table of the inspected process (`live_size`, a gdb lookup); that
external computation is abstracted as the oracle `liveSize`. -/
def lsa_object_descriptor.end_pos (liveSize : lsa_object_descriptor → Nat)
    (d : lsa_object_descriptor) : Nat :=
  if d.is_live then d.obj_pos + liveSize d
  else d.desc_pos + d.dead_size

/-- `(seg + logalloc_alignment_mask) & ~logalloc_alignment_mask` for an
alignment of `2 ^ k`: clearing the low `k` bits of `x + 2^k - 1`. -/
def alignUp (k x : Nat) : Nat :=
  ((x + (2 ^ k - 1)) >>> k) <<< k

/-- Outcome of the `scylla lsa-segment` descriptor walk: the descriptors
printed, and whether the walk reached the segment end, aborted on the raised
decode `Exception`, or ran out of fuel. -/
inductive SegmentResult where
  | done (descs : List lsa_object_descriptor)
  | error (descs : List lsa_object_descriptor)
  | fuelOut (descs : List lsa_object_descriptor)
  deriving Repr, DecidableEq

/-- Prepend a descriptor to a segment-walk result. -/
def SegmentResult.cons (d : lsa_object_descriptor) : SegmentResult → SegmentResult
  | .done ds => .done (d :: ds)
  | .error ds => .error (d :: ds)
  | .fuelOut ds => .fuelOut (d :: ds)

/-- The `scylla_lsa_segment.invoke` loop:
```
while seg < seg_end:
    desc = lsa_object_descriptor.decode(seg)
    print(desc)
    seg = desc.end_pos()
    seg = (seg + logalloc_alignment_mask) & ~logalloc_alignment_mask
```
A raised decode exception propagates, aborting the remainder of the segment
with no resynchronization. -/
def walkSegment (mem : Nat → Nat) (liveSize : lsa_object_descriptor → Nat)
    (alignK : Nat) : Nat → Nat → Nat → SegmentResult
  | 0, _, _ => .fuelOut []
  | fuel + 1, seg, seg_end =>
    if seg_end ≤ seg then .done []
    else
      match decode mem (fuel + 1) seg with
      | .error => .error []
      | .fuelOut => .fuelOut []
      | .ok d =>
        (walkSegment mem liveSize alignK fuel
          (alignUp alignK (d.end_pos liveSize)) seg_end).cons d

/-! ### Span table (`spans`, `span_checker`)

A page descriptor carries the fields the engine reads: `span_size` (nonzero
on the first page of a span), `free`, `pool` (a `small_pool*`, `0` meaning
null), `offset_in_span` and `freelist` (head of the per-span free list, `0`
meaning null). -/

structure Page where
  span_size : Nat
  free : Bool
  pool : Nat
  offset_in_span : Nat
  freelist : Nat
  deriving Repr, DecidableEq

/-- A `span` object: the page index, the start address
`mem_start + idx * page_size`, and the first page's descriptor. -/
structure Span where
  index : Nat
  start : Nat
  page : Page
  deriving Repr, DecidableEq

/-- The `spans()` generator loop:
```
idx = 1
while idx < nr_pages:
    page = pages[idx]
    span_size = int(page['span_size'])
    if span_size == 0: idx += 1; continue
    addr = mem_start + idx * page_size
    yield span(idx, addr, page)
    idx += span_size
```
The scan starts at page index 1; page 0 is never examined. -/
def spansFrom (pages : Nat → Page) (nr_pages mem_start page_size : Nat)
    (idx : Nat) : List Span :=
  if _h : idx < nr_pages then
    -- `page = pages[idx]`, `span_size = int(page['span_size'])`
    if hz : (pages idx).span_size = 0 then
      spansFrom pages nr_pages mem_start page_size (idx + 1)
    else
      ⟨idx, mem_start + idx * page_size, pages idx⟩ ::
        spansFrom pages nr_pages mem_start page_size (idx + (pages idx).span_size)
  else []
  termination_by nr_pages - idx
  decreasing_by
  · omega
  · have hge : 1 ≤ (pages idx).span_size := Nat.one_le_iff_ne_zero.mpr hz
    omega

/-- `list(spans())`. -/
def spanList (pages : Nat → Page) (nr_pages mem_start page_size : Nat) :
    List Span :=
  spansFrom pages nr_pages mem_start page_size 1

/-- `bisect.bisect_right(a, x)` from the Python standard library:
```
while lo < hi:
    mid = (lo + hi) // 2
    if x < a[mid]: hi = mid
    else: lo = mid + 1
return lo
```
-/
def bisectRightAux (a : List Nat) (x : Nat) : Nat → Nat → Nat
  | lo, hi =>
    if h : lo < hi then
      let mid := (lo + hi) / 2
      if x < a.getD mid 0 then bisectRightAux a x lo mid
      else bisectRightAux a x (mid + 1) hi
    else lo
  termination_by lo hi => hi - lo
  decreasing_by
  · omega
  · omega

/-- `bisect.bisect_right(self._starts, ptr)`. -/
def bisectRight (a : List Nat) (x : Nat) : Nat :=
  bisectRightAux a x 0 a.length

/-- The `span_checker` state: `_page_size`, the span list,
`_starts = [s.start for s in span_list]`, and `_start_to_span` modelled as
lookup-by-start in the span list (starts are pairwise distinct for a positive
page size, so the dict lookup and the list lookup agree). -/
structure SpanChecker where
  page_size : Nat
  span_list : List Span

/-- `span_checker.__init__` built from a page array. -/
def mkSpanChecker (pages : Nat → Page) (nr_pages mem_start page_size : Nat) :
    SpanChecker :=
  ⟨page_size, spanList pages nr_pages mem_start page_size⟩

/-- `self._starts`. -/
def SpanChecker.starts (sc : SpanChecker) : List Nat :=
  sc.span_list.map Span.start

/-- `span_checker.get_span`:
```
idx = bisect.bisect_right(self._starts, ptr)
if idx == 0: return None
span_start = self._starts[idx - 1]
s = self._start_to_span[span_start]
if span_start + s.page['span_size'] * self._page_size <= ptr: return None
return s
```
-/
def SpanChecker.get_span (sc : SpanChecker) (ptr : Nat) : Option Span :=
  -- `idx = bisect_right(starts, ptr)`, `span_start = starts[idx - 1]`
  if bisectRight sc.starts ptr = 0 then none
  else
    match sc.span_list.find?
        (fun s => s.start = sc.starts.getD (bisectRight sc.starts ptr - 1) 0) with
    | none => none
    | some s =>
      if sc.starts.getD (bisectRight sc.starts ptr - 1) 0 +
          s.page.span_size * sc.page_size ≤ ptr then none
      else some s

/-! ### Pointer classifier, small-object-pool branch (`scylla_ptr.analyze`)

The classification record `pointer_metadata`, restricted to the fields the
small-pool branch writes (`_init_seastar_ptr` defaults shown in the
structure defaults). -/

structure PtrMeta where
  ptr : Nat
  is_containing_page_free : Bool := false
  is_small : Bool := false
  is_live : Bool := false
  size : Nat := 0
  offset_in_object : Nat := 0
  deriving Repr, DecidableEq

/-- The free-list walk of `analyze` (used for both the pool-level `_free`
list and the per-span `freelist`):
```
next_free = head
while next_free:
    if ptr >= next_free and ptr < next_free + object_size: free = True; break
    next_free = *next_free
```
`mem` is the machine-word read oracle (`reinterpret_cast<void**>` followed by
a dereference); a null link is address `0`.  Fuel bounds the walk: the source
loop terminates only because free lists are finite and acyclic. -/
def freeListCovers (mem : Nat → Nat) (object_size ptr : Nat) :
    Nat → Nat → Option Bool
  | 0, next_free => if next_free = 0 then some false else none
  | fuel + 1, next_free =>
    if next_free = 0 then some false
    else if next_free ≤ ptr ∧ ptr < next_free + object_size then some true
    else freeListCovers mem object_size ptr fuel (mem next_free)

/-- The chain of nodes of a singly linked free list starting at `head`,
following `mem` until the null link; `none` when the chain does not reach
null within `fuel` steps. -/
def chainNodes (mem : Nat → Nat) : Nat → Nat → Option (List Nat)
  | 0, head => if head = 0 then some [] else none
  | fuel + 1, head =>
    if head = 0 then some []
    else (chainNodes mem fuel (mem head)).map (fun l => head :: l)

/-- `scylla_ptr.analyze`, from the span lookup onward, for an address whose
span was found (lines 1636-1669).  Inputs are the values the code reads from
the located span and its pool: `spanStart = span.start`,
`usedBytes = span.used_span_size() * page_size`,
`object_size = pool['_object_size']`, `poolFree = pool['_free']` and
`spanFreelist = span.page['freelist']`.  The branch for large spans
(lines 1670-1674) is not needed by the claims and is omitted; the claims
quantify only over small-pool spans. -/
def analyzeSmall (mem : Nat → Nat) (fuel : Nat)
    (ptr spanStart usedBytes object_size poolFree spanFreelist : Nat) :
    Option PtrMeta :=
  let offset_in_span := ptr - spanStart
  if usedBytes ≤ offset_in_span then
    -- `ptr_meta.mark_free()`
    some { ptr := ptr, is_containing_page_free := true, is_live := false }
  else
    let offset_in_object := offset_in_span % object_size
    -- pool's free list, then (only if not found) the span's free list
    match freeListCovers mem object_size ptr fuel poolFree with
    | none => none
    | some true =>
      some { ptr := ptr, is_small := true, size := object_size,
             is_live := false }
    | some false =>
      match freeListCovers mem object_size ptr fuel spanFreelist with
      | none => none
      | some true =>
        some { ptr := ptr, is_small := true, size := object_size,
               is_live := false }
      | some false =>
        some { ptr := ptr, is_small := true, size := object_size,
               is_live := true, offset_in_object := offset_in_object }

/-! ### Heap-profile tree collapsing (`ProfNode`, `collapse_similar`)

A `ProfNode` carries `key`, the accumulated `size` and `count`, the
`tail` list of collapsed keys, and `children_by_key` — a Python dict in
insertion order with pairwise-distinct keys, modelled as the ordered list of
child nodes. -/

inductive ProfNode : Type where
  | node : Nat → Nat → Nat → List Nat → List ProfNode → ProfNode

def ProfNode.key : ProfNode → Nat
  | .node k _ _ _ _ => k

def ProfNode.size : ProfNode → Nat
  | .node _ s _ _ _ => s

def ProfNode.count : ProfNode → Nat
  | .node _ _ c _ _ => c

def ProfNode.tail : ProfNode → List Nat
  | .node _ _ _ t _ => t

def ProfNode.children : ProfNode → List ProfNode
  | .node _ _ _ _ cs => cs

mutual

/-- Number of nodes of a tree (termination measure). -/
def nodeCount : ProfNode → Nat
  | .node _ _ _ _ cs => 1 + nodeCountList cs

def nodeCountList : List ProfNode → Nat
  | [] => 0
  | c :: cs => nodeCount c + nodeCountList cs

end

/-- `node.has_only_one_child()` holds and the single child's
`(size, count)` attributes equal the node's own — the condition under which
`collapse_similar` squashes the child into the node. -/
def squashable : ProfNode → Prop
  | .node _ s c _ cs =>
    match cs with
    | [child] => s = child.size ∧ c = child.count
    | _ => False

instance : DecidablePred squashable := fun t =>
  match t with
  | .node _ _ _ _ [] => by unfold squashable; exact inferInstance
  | .node _ _ _ _ [_] => by unfold squashable; exact inferInstance
  | .node _ _ _ _ (_ :: _ :: _) => by unfold squashable; exact inferInstance

/-- The `while` loop of `collapse_similar`:
```
while node.has_only_one_child():
    child = next(iter(node.children))
    if node.attributes == child.attributes:
        node.squash_child()          # children_by_key = child.children_by_key
        node.tail.append(child.key)
    else:
        break
```
-/
def collapseLoop : ProfNode → ProfNode
  | .node k s c tl cs =>
    match cs with
    | [child] =>
      if s = child.size ∧ c = child.count then
        collapseLoop (.node k s c (tl ++ [child.key]) child.children)
      else .node k s c tl cs
    | _ => .node k s c tl cs
  termination_by t => nodeCount t
  decreasing_by
  simp only [nodeCount, nodeCountList]
  cases child with
  | node k2 s2 c2 tl2 cs2 => simp only [ProfNode.children, nodeCount]; omega

/-- The keys of the children squashed by the `while` loop of
`collapse_similar` at a node with attributes `(s, c)` and child list `cs`,
in merge order (each squash appends the merged child's key to the node's
`tail`). -/
def squashKeys (s c : Nat) : List ProfNode → List Nat
  | [child] =>
    if s = child.size ∧ c = child.count then
      child.key :: squashKeys s c child.children
    else []
  | _ => []
  termination_by cs => nodeCountList cs
  decreasing_by
  simp only [nodeCountList]
  cases child with
  | node k2 s2 c2 tl2 cs2 => simp only [ProfNode.children, nodeCount]; omega

theorem nodeCountList_mem_lt {c : ProfNode} {cs : List ProfNode}
    (h : c ∈ cs) : nodeCount c ≤ nodeCountList cs := by
  induction cs with
  | nil => cases h
  | cons d ds ih =>
    simp only [nodeCountList]
    rcases List.mem_cons.mp h with h1 | h2
    · subst h1; omega
    · have := ih h2; omega

theorem collapseLoop_nil (k s c : Nat) (tl : List Nat) :
    collapseLoop (.node k s c tl []) = .node k s c tl [] := by
  rw [collapseLoop]
  simp

theorem collapseLoop_single (k s c : Nat) (tl : List Nat) (child : ProfNode) :
    collapseLoop (.node k s c tl [child]) =
      if s = child.size ∧ c = child.count then
        collapseLoop (.node k s c (tl ++ [child.key]) child.children)
      else .node k s c tl [child] := by
  rw [collapseLoop]

theorem collapseLoop_multi (k s c : Nat) (tl : List Nat)
    (d e : ProfNode) (rest : List ProfNode) :
    collapseLoop (.node k s c tl (d :: e :: rest)) =
      .node k s c tl (d :: e :: rest) := by
  rw [collapseLoop]
  simp

theorem squashKeys_nil (s c : Nat) : squashKeys s c [] = [] := by
  rw [squashKeys]
  simp

theorem squashKeys_single (s c : Nat) (child : ProfNode) :
    squashKeys s c [child] =
      if s = child.size ∧ c = child.count then
        child.key :: squashKeys s c child.children
      else [] := by
  rw [squashKeys]

theorem squashKeys_multi (s c : Nat) (d e : ProfNode) (rest : List ProfNode) :
    squashKeys s c (d :: e :: rest) = [] := by
  rw [squashKeys]
  simp

theorem collapseLoop_count_le_aux :
    ∀ (n : Nat) (t : ProfNode), nodeCount t ≤ n →
      nodeCount (collapseLoop t) ≤ nodeCount t := by
  intro n
  induction n with
  | zero =>
    intro t h
    cases t with
    | node k s c tl cs => simp [nodeCount] at h
  | succ n ih =>
    intro t h
    cases t with
    | node k s c tl cs =>
      match cs with
      | [] => rw [collapseLoop_nil]
      | d :: e :: rest => rw [collapseLoop_multi]
      | [child] =>
        rw [collapseLoop_single]
        by_cases hc : s = child.size ∧ c = child.count
        · rw [if_pos hc]
          cases child with
          | node k2 s2 c2 tl2 cs2 =>
            simp only [ProfNode.key, ProfNode.children]
            have hrec := ih (ProfNode.node k s c (tl ++ [k2]) cs2) (by
              simp only [nodeCount, nodeCountList] at h ⊢
              omega)
            simp only [nodeCount, nodeCountList] at hrec ⊢
            omega
        · rw [if_neg hc]

theorem collapseLoop_count_le (t : ProfNode) :
    nodeCount (collapseLoop t) ≤ nodeCount t :=
  collapseLoop_count_le_aux (nodeCount t) t (le_refl _)

/-- `collapse_similar`: run the squashing `while` loop at the node, then
recurse into the (post-loop) children:
```
collapse_similar(node):  # loop above, then
    for child in node.children: collapse_similar(child)
```
-/
def collapse_similar (t : ProfNode) : ProfNode :=
  match h : collapseLoop t with
  | .node k s c tl cs =>
    .node k s c tl (cs.attach.map (fun c2 => collapse_similar c2.1))
  termination_by nodeCount t
  decreasing_by
  have hle : nodeCount (collapseLoop t) ≤ nodeCount t := collapseLoop_count_le t
  rw [h] at hle
  have hmem := nodeCountList_mem_lt c2.2
  simp only [nodeCount] at hle
  omega

/-! ### Fiber walker (`scylla_fiber._do_walk`, `_walk`)

`_probe_pointer` is the acceptance test: read the first machine word at the
candidate address, resolve it as a symbol, match the whitelist, and (in
classifier mode) require a live allocation start.  Its outcome only feeds the
walk through the returned `pointer_metadata` (address and size), so it is
abstracted as an oracle `probe : Nat → Option TaskMeta`.  `mem` is the
machine-word read oracle (`uintptr_t` reads, 8 bytes on the target). -/

structure TaskMeta where
  ptr : Nat
  size : Nat
  deriving Repr, DecidableEq

/-- The candidate word addresses scanned by `_do_walk`:
```
region_start = ptr + 8                              # ignore our own vtable
region_end = region_start + (size - size % 8)
range(region_start, region_end, 8)
```
-/
def probedAddrs (ptr size : Nat) : List Nat :=
  List.range' (ptr + 8) ((size - size % 8) / 8) 8

mutual

/-- `scylla_fiber._do_walk`.  The recursion is unbounded when
`max_depth == -1` (a cyclic chain recurses forever in the source), so it
takes fuel; `none` is the fuel cut-off.  An entry of the returned fiber is
the accepted task address (`maybe_tptr`). -/
def do_walk (probe : Nat → Option TaskMeta) (mem : Nat → Nat)
    (max_depth : Int) : Nat → TaskMeta → Nat → Option (List Nat)
  | 0, _, _ => none
  | fuel + 1, meta, i =>
    if max_depth > -1 ∧ (i : Int) ≥ max_depth then some []
    else scanWords probe mem max_depth fuel (probedAddrs meta.ptr meta.size) i

/-- The `for it in range(region_start, region_end, 8)` loop of `_do_walk`:
the first probed word that passes the acceptance test is followed; the rest
of the region is not examined. -/
def scanWords (probe : Nat → Option TaskMeta) (mem : Nat → Nat)
    (max_depth : Int) : Nat → List Nat → Nat → Option (List Nat)
  | _, [], _ => some []
  | fuel, it :: rest, i =>
    match probe (mem it) with
    | none => scanWords probe mem max_depth fuel rest i
    | some tmeta =>
      (do_walk probe mem max_depth fuel tmeta (i + 1)).map
        (fun fiber => fiber ++ [mem it])

end

/-- Outcome of `scylla_fiber._walk`.  When the starting address fails the
acceptance test the source writes the "Provided pointer ... is not an object
managed by seastar or not a task pointer" message and then evaluates
`this_task[0]` with `this_task = None`, raising a `TypeError`
(`typeError` below); there is no `return` after the message. -/
inductive WalkResult where
  | typeError
  | ok (this_task : TaskMeta) (fiber : List Nat)
  deriving Repr, DecidableEq

/-- `scylla_fiber._walk` (the chain is returned most-recent-first via
`reversed`); `none` is the fuel cut-off of the recursive walk. -/
def walk (probe : Nat → Option TaskMeta) (mem : Nat → Nat) (fuel : Nat)
    (ptr : Nat) (max_depth : Int) : Option WalkResult :=
  match probe ptr with
  | none => some .typeError
  | some m =>
    (do_walk probe mem max_depth fuel m 0).map
      (fun fiber => .ok m fiber.reverse)

/-! A planted linear chain for the fiber-walker claims: tasks live at
addresses `4096 * j` for `1 ≤ j ≤ K`, each of size 16; the machine word at
offset 8 of task `j < K` holds the address of task `j + 1`, the word at
offset 8 of task `K` and every other probed word holds `1`, which is not a
recognized task. -/

/-- Acceptance oracle of the planted chain: exactly the `K` task addresses
are recognized, each as a live 16-byte allocation start. -/
def chainProbe (K : Nat) (x : Nat) : Option TaskMeta :=
  if x % 4096 = 0 ∧ 4096 ≤ x ∧ x ≤ 4096 * K then some ⟨x, 16⟩ else none

/-- Word-read oracle of the planted chain. -/
def chainMem (K : Nat) (x : Nat) : Nat :=
  if x % 4096 = 8 ∧ x ≤ 4096 * K then x + 4088 else 1

/-! ### Object-graph builder (`scylla_generate_object_graph`)

`scylla_find.find(value)` (brute-force scan of the shard's memory for a
word holding `value`, keeping live objects only) is the external primitive
`find : Nat → List (Nat × Nat)`, yielding `(obj_start, offset)` pairs.  The
wall-clock timeout comparison is modelled by an oracle `toracle` consulted on
the n-th performed timeout check; the theorems hold for every oracle, i.e.
for every possible timing. -/

structure BfsState where
  /-- Keys of the `vertices` dict, in insertion order (the stored
  `(ptr_meta, symbol)` values never feed back into control flow). -/
  vertices : List Nat
  /-- Raw reference hits `((referrer, referee), offset)` in discovery order;
  the source's `defaultdict(set)` groups them by edge, which is a pure
  display transformation of this list. -/
  edges : List ((Nat × Nat) × Nat)
  next_objects : List Nat
  stop : Bool
  /-- Number of timeout checks performed so far (oracle cursor). -/
  tchecks : Nat

/-- The `for next_obj, next_off in scylla_find.find(current_obj)` loop body
of `_traverse_object_graph_breadth_first`:
```
if timeout_seconds > 0:
    if current_time - start_time > timeout_seconds: stop = True; break
edges[(next_obj, current_obj)].add(next_off)
if next_obj in vertices: continue
vertices[next_obj] = (scylla_ptr.analyze(next_obj), resolve(...))
next_objects.append(next_obj)
if max_vertices > 0 and len(vertices) >= max_vertices: stop = True; break
```
-/
def processFinds (toracle : Nat → Bool) (timeoutOn : Bool) (max_vertices : Int)
    (current_obj : Nat) : List (Nat × Nat) → BfsState → BfsState
  | [], st => st
  | (next_obj, next_off) :: rest, st =>
    let fired := timeoutOn ∧ toracle st.tchecks
    let st := if timeoutOn then { st with tchecks := st.tchecks + 1 } else st
    if fired then { st with stop := true }
    else
      let st := { st with edges := st.edges ++ [((next_obj, current_obj), next_off)] }
      if next_obj ∈ st.vertices then
        processFinds toracle timeoutOn max_vertices current_obj rest st
      else
        let st := { st with vertices := st.vertices ++ [next_obj],
                            next_objects := st.next_objects ++ [next_obj] }
        if max_vertices > 0 ∧ max_vertices ≤ (st.vertices.length : Int) then
          { st with stop := true }
        else processFinds toracle timeoutOn max_vertices current_obj rest st

/-- The `for current_obj in current_objects` loop: note that a `break` of
the inner loop does not leave this loop, so the remaining objects of the
level are still scanned even after `stop` is set. -/
def processLevel (find : Nat → List (Nat × Nat)) (toracle : Nat → Bool)
    (timeoutOn : Bool) (max_vertices : Int) :
    List Nat → BfsState → BfsState
  | [], st => st
  | cur :: rest, st =>
    processLevel find toracle timeoutOn max_vertices rest
      (processFinds toracle timeoutOn max_vertices cur (find cur) st)

/-- The `while not stop` level loop of
`_traverse_object_graph_breadth_first` (fuel-bounded: with all three limits
disabled the source loops forever, which `invoke` rejects up front). -/
def bfsLoop (find : Nat → List (Nat × Nat)) (toracle : Nat → Bool)
    (max_depth max_vertices timeout_seconds : Int) :
    Nat → Nat → List Nat → BfsState → BfsState
  | 0, _, _, st => st
  | fuel + 1, depth, current_objects, st =>
    if st.stop then st
    else
      let st2 := processLevel find toracle (timeout_seconds > 0) max_vertices
        current_objects st
      if max_depth > 0 ∧ ((depth + 1 : Nat) : Int) = max_depth then
        { st2 with stop := true }
      else
        bfsLoop find toracle max_depth max_vertices timeout_seconds fuel
          (depth + 1) st2.next_objects { st2 with next_objects := [] }

/-- `_traverse_object_graph_breadth_first(address, ...)`. -/
def traverseObjectGraph (find : Nat → List (Nat × Nat)) (toracle : Nat → Bool)
    (max_depth max_vertices timeout_seconds : Int) (fuel address : Nat) :
    BfsState :=
  bfsLoop find toracle max_depth max_vertices timeout_seconds fuel 0 [address]
    ⟨[], [], [], false, 0⟩

/-- The vertex keys of the graph returned by `_do_generate_object_graph`:
the traversal's vertices plus the root, added unconditionally afterwards
(`vertices[address] = ...`; a dict assignment appends the key only when it
is not yet present). -/
def graphVertices (find : Nat → List (Nat × Nat)) (toracle : Nat → Bool)
    (max_depth max_vertices timeout_seconds : Int) (fuel address : Nat) :
    List Nat :=
  let st := traverseObjectGraph find toracle max_depth max_vertices
    timeout_seconds fuel address
  if address ∈ st.vertices then st.vertices else st.vertices ++ [address]

/-! ### Auxiliary facts -/

/-- Or-ing a value below `2 ^ n` with a multiple of `2 ^ n` is addition: the
bit ranges are disjoint. -/
theorem or_disjoint_pow (n : Nat) :
    ∀ a c : Nat, a < 2 ^ n → a ||| (c * 2 ^ n) = a + c * 2 ^ n := by
  induction n with
  | zero =>
    intro a c h
    have : a = 0 := by omega
    subst this
    simp
  | succ n ih =>
    intro a c h
    have ha : Nat.bit (Nat.bodd a) (Nat.div2 a) = a := Nat.bit_decomp a
    have hb : Nat.bit false (c * 2 ^ n) = c * 2 ^ (n + 1) := by
      simp [Nat.bit]
      ring
    rw [← ha, ← hb, Nat.lor_bit]
    have hd : Nat.div2 a < 2 ^ n := by
      rw [Nat.div2_val]
      have h2 : 2 ^ (n + 1) = 2 ^ n * 2 := by ring
      omega
    rw [ih _ c hd]
    have hdiv : Nat.div2 a = a / 2 := Nat.div2_val a
    cases hbo : Nat.bodd a <;>
      simp [Nat.bit, hbo] at ha ⊢ <;>
      · rw [hdiv] at ha ⊢
        have h2 : 2 ^ (n + 1) = 2 ^ n * 2 := by ring
        omega

theorem and_ff_and (x m : Nat) (hm : 255 &&& m = m) :
    (x &&& 255) &&& m = x &&& m := by
  rw [Nat.and_assoc, hm]

/-! ### Claim theorems -/

/-- Claim C9: two histogram instances constructed without an explicit
`counts` argument reference the single module-level default
`defaultdict(int)`; after `add(k)` on one of them, `[k]` read through the
other yields `1`, and the other's `len` reflects the added key. -/
theorem histogram_shared_default_counts (k : Nat) :
    histogramDefault.counts_ref = histogramDefault.counts_ref ∧
    histogramGet (histogramAdd initialStore histogramDefault k)
      histogramDefault k = 1 ∧
    histogramLen (histogramAdd initialStore histogramDefault k)
      histogramDefault = 1 := by
  refine ⟨rfl, ?_, ?_⟩ <;>
    simp [histogramGet, histogramAdd, histogramLen, histogramDefault,
      initialStore, PyDict.incr, PyDict.get]

/-! #### Descriptor decoding (claims C2, C7) -/

/-- The bytes `mem pos, mem (pos+1), ..., mem (pos+n-1)`. -/
def bytesFrom (mem : Nat → Nat) (pos n : Nat) : List Nat :=
  (List.range n).map (fun i => mem (pos + i))

/-- The value described by the claim: 6 bits per byte, byte 0 contributing
the least-significant 6 bits. -/
def vlqValue : List Nat → Nat
  | [] => 0
  | b :: bs => (b &&& 0x3f) + 64 * vlqValue bs

theorem bytesFrom_succ (mem : Nat → Nat) (pos n : Nat) :
    bytesFrom mem pos (n + 1) = mem pos :: bytesFrom mem (pos + 1) n := by
  unfold bytesFrom
  rw [List.range_succ_eq_map]
  simp [Function.comp, Nat.add_comm, Nat.add_assoc, Nat.add_left_comm]

theorem decodeLoop_stop (mem : Nat → Nat) (sp fuel pos value shift b : Nat)
    (h : b &&& 0x80 ≠ 0) :
    decodeLoop mem sp fuel pos value shift b = .ok ⟨value, sp, pos⟩ := by
  rw [decodeLoop.eq_def]
  simp [h]

theorem decodeLoop_go (mem : Nat → Nat) (sp f pos value shift b : Nat)
    (hb : b &&& 0x80 = 0) :
    decodeLoop mem sp (f + 1) pos value shift b =
      decodeLoop mem sp f (pos + 1)
        (value ||| ((mem pos &&& 0xff) &&& 0x3f) <<< (shift + 6)) (shift + 6)
        (mem pos &&& 0xff) := by
  rw [decodeLoop.eq_def]
  simp [hb]

theorem decodeLoop_run (mem : Nat → Nat) (sp : Nat) :
    ∀ (k fuel pos value shift b : Nat),
      k + 1 ≤ fuel →
      b &&& 0x80 = 0 →
      (∀ i, i < k → mem (pos + i) &&& 0x80 = 0) →
      mem (pos + k) &&& 0x80 ≠ 0 →
      value < 2 ^ (shift + 6) →
      decodeLoop mem sp fuel pos value shift b =
        .ok ⟨value + 2 ^ (shift + 6) * vlqValue (bytesFrom mem pos (k + 1)),
             sp, pos + (k + 1)⟩ := by
  intro k
  induction k with
  | zero =>
    intro fuel pos value shift b hfuel hb _hmid hterm hval
    match fuel, hfuel with
    | f + 1, _ =>
      rw [decodeLoop_go mem sp f pos value shift b hb]
      have hstop : (mem pos &&& 255) &&& 128 ≠ 0 := by
        rw [and_ff_and _ 128 (by decide)]
        simpa using hterm
      rw [decodeLoop_stop mem sp f (pos + 1) _ _ _ hstop]
      have h3f : (mem pos &&& 255) &&& 63 = mem pos &&& 63 :=
        and_ff_and _ 63 (by decide)
      rw [h3f, Nat.shiftLeft_eq,
        or_disjoint_pow (shift + 6) value (mem pos &&& 63) hval]
      rw [bytesFrom_succ]
      simp only [bytesFrom, List.range_zero, List.map_nil, vlqValue]
      exact congrArg DecodeResult.ok
        (congrArg (fun v => lsa_object_descriptor.mk v sp (pos + 1)) (by ring))
  | succ k ih =>
    intro fuel pos value shift b hfuel hb hmid hterm hval
    match fuel, hfuel with
    | f + 1, hfuel =>
      rw [decodeLoop_go mem sp f pos value shift b hb]
      have hb2 : (mem pos &&& 255) &&& 128 = 0 := by
        rw [and_ff_and _ 128 (by decide)]
        exact hmid 0 (Nat.succ_pos k)
      have h3f : (mem pos &&& 255) &&& 63 = mem pos &&& 63 :=
        and_ff_and _ 63 (by decide)
      have hchunk : mem pos &&& 63 ≤ 63 := Nat.and_le_right
      have hp : 2 ^ (shift + 6 + 6) = 2 ^ (shift + 6) * 64 := by
        rw [pow_add]
        norm_num
      have hv2 : value ||| ((mem pos &&& 255) &&& 63) <<< (shift + 6) =
          value + (mem pos &&& 63) * 2 ^ (shift + 6) := by
        rw [h3f, Nat.shiftLeft_eq,
          or_disjoint_pow (shift + 6) value (mem pos &&& 63) hval]
      rw [hv2]
      have hmul : (mem pos &&& 63) * 2 ^ (shift + 6) ≤ 63 * 2 ^ (shift + 6) :=
        Nat.mul_le_mul_right _ hchunk
      have hrec := ih f (pos + 1)
        (value + (mem pos &&& 63) * 2 ^ (shift + 6)) (shift + 6)
        (mem pos &&& 255) (by omega) hb2
        (fun i hi => by
          have := hmid (i + 1) (by omega)
          rw [show pos + 1 + i = pos + (i + 1) by omega]
          exact this)
        (by
          rw [show pos + 1 + k = pos + (k + 1) by omega]
          exact hterm)
        (by omega)
      rw [hrec]
      rw [bytesFrom_succ mem pos (k + 1)]
      simp only [vlqValue]
      have hpos : pos + 1 + (k + 1) = pos + (k + 1 + 1) := by omega
      rw [hp, hpos]
      exact congrArg DecodeResult.ok
        (congrArg
          (fun v => lsa_object_descriptor.mk v sp (pos + (k + 1 + 1)))
          (by ring))

/-- Claim C2: for a byte sequence whose first byte has bit `0x40` set, whose
bytes `0..k-1` have bit 7 clear and whose byte `k` has bit 7 set, `decode`
consumes exactly bytes `0..k` and accumulates the value 6 bits per byte
(byte 0 contributing the least-significant 6 bits); bit 0 of the value is
the liveness flag, and when it is clear the descriptor's end position is its
start position plus `value >> 1`, for every migrator size oracle. -/
theorem descriptor_decode_bitexact (mem : Nat → Nat) (start k fuel : Nat)
    (hfuel : k ≤ fuel)
    (h40 : mem start &&& 0x40 ≠ 0)
    (hmid : ∀ i, i < k → mem (start + i) &&& 0x80 = 0)
    (hterm : mem (start + k) &&& 0x80 ≠ 0) :
    decode mem fuel start =
      .ok ⟨vlqValue (bytesFrom mem start (k + 1)), start, start + (k + 1)⟩ ∧
    ((lsa_object_descriptor.mk (vlqValue (bytesFrom mem start (k + 1))) start
        (start + (k + 1))).is_live = true ↔
      vlqValue (bytesFrom mem start (k + 1)) &&& 1 = 1) ∧
    (vlqValue (bytesFrom mem start (k + 1)) &&& 1 = 0 →
      ∀ liveSize,
        (lsa_object_descriptor.mk (vlqValue (bytesFrom mem start (k + 1)))
          start (start + (k + 1))).end_pos liveSize =
        start + vlqValue (bytesFrom mem start (k + 1)) >>> 1) := by
  refine ⟨?_, ?_, ?_⟩
  · unfold decode
    have h40m : ¬ ((mem start &&& 255) &&& 64 = 0) := by
      rw [and_ff_and _ 64 (by decide)]
      simpa using h40
    rw [if_neg h40m]
    cases k with
    | zero =>
      have hstop : (mem start &&& 255) &&& 128 ≠ 0 := by
        rw [and_ff_and _ 128 (by decide)]
        simpa using hterm
      rw [decodeLoop_stop mem start fuel (start + 1) _ _ _ hstop]
      rw [bytesFrom_succ]
      simp only [bytesFrom, List.range_zero, List.map_nil, vlqValue,
        and_ff_and _ 63 (by decide)]
      exact congrArg DecodeResult.ok
        (congrArg (fun v => lsa_object_descriptor.mk v start (start + 1))
          (by omega))
    | succ k =>
      have hb : (mem start &&& 255) &&& 128 = 0 := by
        rw [and_ff_and _ 128 (by decide)]
        exact hmid 0 (Nat.succ_pos k)
      have hval : (mem start &&& 255) &&& 63 < 2 ^ (0 + 6) := by
        have : (mem start &&& 255) &&& 63 ≤ 63 := Nat.and_le_right
        omega
      have hrun := decodeLoop_run mem start k fuel (start + 1)
        ((mem start &&& 255) &&& 63) 0 (mem start &&& 255)
        (by omega) hb
        (fun i hi => by
          have := hmid (i + 1) (by omega)
          rw [show start + 1 + i = start + (i + 1) by omega]
          exact this)
        (by
          rw [show start + 1 + k = start + (k + 1) by omega]
          exact hterm)
        hval
      rw [hrun]
      rw [bytesFrom_succ mem start (k + 1)]
      simp only [vlqValue, and_ff_and _ 63 (by decide)]
      have hpos : start + 1 + (k + 1) = start + (k + 1 + 1) := by omega
      rw [hpos]
      exact congrArg DecodeResult.ok
        (congrArg
          (fun v => lsa_object_descriptor.mk v start (start + (k + 1 + 1)))
          (by norm_num))
  · simp [lsa_object_descriptor.is_live]
  · intro hflag liveSize
    rw [Nat.and_one_is_mod] at hflag
    have hlive : (lsa_object_descriptor.mk
        (vlqValue (bytesFrom mem start (k + 1))) start
        (start + (k + 1))).is_live = false := by
      simp only [lsa_object_descriptor.is_live, Nat.and_one_is_mod,
        decide_eq_false_iff_not]
      omega
    unfold lsa_object_descriptor.end_pos
    rw [hlive]
    simp only [Bool.false_eq_true, if_false, lsa_object_descriptor.dead_size]
    rw [Nat.shiftRight_eq_div_pow]

/-- Witness for C2: the two-byte descriptor `0x44 0x81` decodes to value
`68 = 4 + 64`, consuming both bytes; the value is even (a dead run), so the
end position is `0 + 68 >> 1 = 34`. -/
theorem descriptor_decode_bitexact_witness :
    decode (fun i => if i = 0 then 0x44 else 0x81) 1 0 =
      .ok ⟨68, 0, 2⟩ ∧
    (68 : Nat) &&& 1 = 0 ∧
    (lsa_object_descriptor.mk 68 0 2).end_pos (fun _ => 0) = 34 := by
  have h := descriptor_decode_bitexact (fun i => if i = 0 then 0x44 else 0x81)
    0 1 1 (by omega) (by decide)
    (fun i hi => by
      have : i = 0 := by omega
      subst this
      decide)
    (by decide)
  obtain ⟨h1, _h2, h3⟩ := h
  have hv : vlqValue (bytesFrom (fun i => if i = 0 then 0x44 else 0x81) 0 2) =
      68 := by decide
  refine ⟨?_, ?_, ?_⟩
  · rw [hv] at h1
    simpa using h1
  · decide
  · have := h3 (by decide) (fun _ => 0)
    rw [hv] at this
    simpa using this

/-- `decodeLoop` never raises: the only `raise` in `decode` is the
first-byte tag check, before the loop is entered. -/
theorem decodeLoop_ne_error (mem : Nat → Nat) (sp : Nat) :
    ∀ fuel pos value shift b,
      decodeLoop mem sp fuel pos value shift b ≠ .error := by
  intro fuel
  induction fuel with
  | zero =>
    intro pos value shift b
    rw [decodeLoop.eq_def]
    by_cases h : b &&& 128 ≠ 0 <;> simp [h]
  | succ f ih =>
    intro pos value shift b
    by_cases h : b &&& 128 ≠ 0
    · rw [decodeLoop_stop mem sp _ _ _ _ _ h]
      simp
    · rw [decodeLoop_go mem sp f pos value shift b (by omega)]
      exact ih _ _ _ _

/-- Claim C7: decoding a descriptor fails with the raised exception exactly
when the first byte lacks bit `0x40`; at such a byte the segment walk aborts
immediately, producing no partial descriptor and not resynchronizing (the
remainder of the segment is not decoded). -/
theorem descriptor_malformed_tag_aborts (mem : Nat → Nat) (fuel pos : Nat) :
    (decode mem fuel pos = .error ↔ mem pos &&& 0x40 = 0) ∧
    (∀ (seg_end alignK f2 : Nat) (liveSize : lsa_object_descriptor → Nat),
      pos < seg_end → mem pos &&& 0x40 = 0 →
      walkSegment mem liveSize alignK (f2 + 1) pos seg_end = .error []) := by
  have hiff : ∀ f2, decode mem f2 pos = .error ↔ mem pos &&& 0x40 = 0 := by
    intro f2
    unfold decode
    rw [and_ff_and (mem pos) 64 (by decide)]
    by_cases h : mem pos &&& 64 = 0
    · simp [h]
    · rw [if_neg h]
      simp only [h, iff_false]
      exact decodeLoop_ne_error mem pos f2 (pos + 1) _ _ _
  refine ⟨hiff fuel, ?_⟩
  intro seg_end alignK f2 liveSize hlt h40
  rw [walkSegment]
  rw [if_neg (by omega)]
  rw [(hiff (f2 + 1)).mpr h40]

/-- Witness for C7: a segment whose first descriptor byte is `0x00` (bit
`0x40` clear) makes `decode` raise and the segment walk abort with no
descriptors. -/
theorem descriptor_malformed_tag_aborts_witness :
    decode (fun _ => 0) 5 0 = .error ∧
    walkSegment (fun _ => 0) (fun _ => 0) 4 3 0 16 = .error [] := by
  have h := descriptor_malformed_tag_aborts (fun _ => 0) 5 0
  exact ⟨h.1.mpr (by decide), h.2 16 4 2 (fun _ => 0) (by omega) (by decide)⟩

/-! #### Span table (claims C3, C10) -/

theorem spansFrom_mem (pages : Nat → Page) (n ms psz : Nat) :
    ∀ (d idx : Nat), n - idx ≤ d →
      ∀ s ∈ spansFrom pages n ms psz idx,
        idx ≤ s.index ∧ s.index < n ∧ s.start = ms + s.index * psz ∧
        s.page = pages s.index := by
  intro d
  induction d with
  | zero =>
    intro idx h s hs
    rw [spansFrom] at hs
    rw [dif_neg (by omega)] at hs
    cases hs
  | succ d ih =>
    intro idx h s hs
    rw [spansFrom] at hs
    by_cases hlt : idx < n
    · rw [dif_pos hlt] at hs
      by_cases hz : (pages idx).span_size = 0
      · rw [dif_pos hz] at hs
        have := ih (idx + 1) (by omega) s hs
        exact ⟨by omega, this.2⟩
      · rw [dif_neg hz] at hs
        rcases List.mem_cons.mp hs with rfl | hs2
        · exact ⟨le_refl _, hlt, rfl, rfl⟩
        · have hsz : 1 ≤ (pages idx).span_size := by omega
          have := ih (idx + (pages idx).span_size) (by omega) s hs2
          exact ⟨by omega, this.2⟩
    · rw [dif_neg hlt] at hs
      cases hs

theorem spansFrom_sorted (pages : Nat → Page) (n ms psz : Nat) :
    ∀ (d idx : Nat), n - idx ≤ d →
      List.Pairwise (fun u v : Span => u.index < v.index)
        (spansFrom pages n ms psz idx) := by
  intro d
  induction d with
  | zero =>
    intro idx h
    rw [spansFrom]
    rw [dif_neg (by omega)]
    exact List.Pairwise.nil
  | succ d ih =>
    intro idx h
    rw [spansFrom]
    by_cases hlt : idx < n
    · rw [dif_pos hlt]
      by_cases hz : (pages idx).span_size = 0
      · rw [dif_pos hz]
        exact ih (idx + 1) (by omega)
      · rw [dif_neg hz]
        have hsz : 1 ≤ (pages idx).span_size := by omega
        refine List.Pairwise.cons ?_ (ih (idx + (pages idx).span_size) (by omega))
        intro t ht
        have := spansFrom_mem pages n ms psz d (idx + (pages idx).span_size)
          (by omega) t ht
        simp only []
        omega
    · rw [dif_neg hlt]
      exact List.Pairwise.nil

/-- Every span of the table has index at least 1, start `ms + index * psz`,
page record `pages index`, and the list is strictly sorted by start when the
page size is positive. -/
theorem spanList_spec (pages : Nat → Page) (n ms psz : Nat) :
    (∀ s ∈ spanList pages n ms psz,
      1 ≤ s.index ∧ s.index < n ∧ s.start = ms + s.index * psz ∧
      s.page = pages s.index) ∧
    (0 < psz → List.Pairwise (fun u v : Span => u.start < v.start)
      (spanList pages n ms psz)) := by
  constructor
  · intro s hs
    exact spansFrom_mem pages n ms psz n 1 (by omega) s hs
  · intro hpsz
    have hp := spansFrom_sorted pages n ms psz n 1 (by omega)
    have hmem := fun s hs => spansFrom_mem pages n ms psz n 1 (by omega) s hs
    unfold spanList
    refine List.Pairwise.imp_of_mem ?_ hp
    intro u v hu hv hlt
    have h1 := hmem u hu
    have h2 := hmem v hv
    rw [h1.2.2.1, h2.2.2.1]
    have : u.index * psz < v.index * psz :=
      (Nat.mul_lt_mul_right hpsz).mpr hlt
    omega

theorem bisectRightAux_spec (a : List Nat) (x : Nat)
    (hmono : ∀ i j, i ≤ j → j < a.length → a.getD i 0 ≤ a.getD j 0) :
    ∀ (d lo hi : Nat), hi - lo ≤ d → lo ≤ hi → hi ≤ a.length →
      (∀ i, i < lo → a.getD i 0 ≤ x) →
      (∀ i, hi ≤ i → i < a.length → x < a.getD i 0) →
      (∀ i, i < bisectRightAux a x lo hi → a.getD i 0 ≤ x) ∧
      (∀ i, bisectRightAux a x lo hi ≤ i → i < a.length →
        x < a.getD i 0) ∧
      lo ≤ bisectRightAux a x lo hi ∧ bisectRightAux a x lo hi ≤ hi := by
  intro d
  induction d with
  | zero =>
    intro lo hi hd hle hlen hlow hhigh
    rw [bisectRightAux]
    rw [dif_neg (by omega)]
    exact ⟨hlow, fun i hi2 hi3 => hhigh i (by omega) hi3, le_refl _, by omega⟩
  | succ d ih =>
    intro lo hi hd hle hlen hlow hhigh
    rw [bisectRightAux]
    by_cases hlt : lo < hi
    · rw [dif_pos hlt]
      by_cases hx : x < a.getD ((lo + hi) / 2) 0
      · rw [if_pos hx]
        have h2 := ih lo ((lo + hi) / 2) (by omega) (by omega) (by omega) hlow
          (fun i hi2 hi3 => lt_of_lt_of_le hx (hmono _ i hi2 hi3))
        exact ⟨h2.1, h2.2.1, h2.2.2.1, le_trans h2.2.2.2 (by omega)⟩
      · rw [if_neg hx]
        have h2 := ih ((lo + hi) / 2 + 1) hi (by omega) (by omega) hlen
          (fun i hi2 =>
            le_trans (hmono i ((lo + hi) / 2) (by omega) (by omega))
              (Nat.le_of_not_lt hx))
          hhigh
        exact ⟨h2.1, h2.2.1, le_trans (by omega) h2.2.2.1, h2.2.2.2⟩
    · rw [dif_neg hlt]
      exact ⟨hlow, fun i hi2 hi3 => hhigh i (by omega) hi3, le_refl _, by omega⟩

/-- Characterization of `bisect.bisect_right` on a monotone list: every
element strictly before the returned insertion point is `≤ x`, every element
at or after it is `> x`. -/
theorem bisectRight_spec (a : List Nat) (x : Nat)
    (hmono : ∀ i j, i ≤ j → j < a.length → a.getD i 0 ≤ a.getD j 0) :
    (∀ i, i < bisectRight a x → a.getD i 0 ≤ x) ∧
    (∀ i, bisectRight a x ≤ i → i < a.length → x < a.getD i 0) ∧
    bisectRight a x ≤ a.length := by
  have h := bisectRightAux_spec a x hmono a.length 0 a.length (by omega)
    (by omega) (le_refl _) (by omega) (by omega)
  exact ⟨h.1, h.2.1, h.2.2.2⟩

theorem mkSpanChecker_starts (pages : Nat → Page) (n ms psz : Nat) :
    (mkSpanChecker pages n ms psz).starts =
      (spanList pages n ms psz).map Span.start := rfl

theorem mkSpanChecker_span_list (pages : Nat → Page) (n ms psz : Nat) :
    (mkSpanChecker pages n ms psz).span_list = spanList pages n ms psz := rfl

theorem mkSpanChecker_page_size (pages : Nat → Page) (n ms psz : Nat) :
    (mkSpanChecker pages n ms psz).page_size = psz := rfl

theorem starts_mono (pages : Nat → Page) (n ms psz : Nat) (hpsz : 0 < psz) :
    ∀ i j, i ≤ j → j < ((spanList pages n ms psz).map Span.start).length →
      ((spanList pages n ms psz).map Span.start).getD i 0 ≤
      ((spanList pages n ms psz).map Span.start).getD j 0 := by
  intro i j hij hj
  rcases Nat.eq_or_lt_of_le hij with rfl | hlt
  · exact le_refl _
  · have hp := (spanList_spec pages n ms psz).2 hpsz
    rw [List.pairwise_iff_getElem] at hp
    have hlen : ((spanList pages n ms psz).map Span.start).length =
        (spanList pages n ms psz).length := List.length_map _ _
    have hi2 : i < (spanList pages n ms psz).length := by omega
    have hj2 : j < (spanList pages n ms psz).length := by omega
    have hrel := hp i j hi2 hj2 hlt
    rw [List.getD_eq_getElem _ 0 (by omega), List.getD_eq_getElem _ 0 (by omega)]
    simp only [List.getElem_map]
    exact le_of_lt hrel

theorem starts_getD_mem (pages : Nat → Page) (n ms psz : Nat) (i : Nat)
    (hi : i < (spanList pages n ms psz).length) :
    ((spanList pages n ms psz).map Span.start).getD i 0 =
      (spanList pages n ms psz)[i].start ∧
    (spanList pages n ms psz)[i] ∈ spanList pages n ms psz := by
  constructor
  · rw [List.getD_eq_getElem _ 0 (by simpa using hi)]
    simp only [List.getElem_map]
  · exact List.getElem_mem hi

/-- Claim C10: span-table construction scans from page index 1: every span
has index at least 1 and start at least one page past the memory start, a
span length recorded at page 0 never yields a span, and `get_span` returns
none for every address below the end of the first page. -/
theorem span_scan_starts_at_page_one (pages : Nat → Page) (n ms psz : Nat)
    (hpsz : 0 < psz) :
    (∀ s ∈ spanList pages n ms psz, 1 ≤ s.index ∧ ms + psz ≤ s.start) ∧
    ((pages 0).span_size ≠ 0 → ∀ s ∈ spanList pages n ms psz, s.index ≠ 0) ∧
    (∀ ptr, ptr < ms + psz →
      (mkSpanChecker pages n ms psz).get_span ptr = none) := by
  have hmem := (spanList_spec pages n ms psz).1
  have part1 : ∀ s ∈ spanList pages n ms psz,
      1 ≤ s.index ∧ ms + psz ≤ s.start := by
    intro s hs
    have h := hmem s hs
    refine ⟨h.1, ?_⟩
    rw [h.2.2.1]
    have : 1 * psz ≤ s.index * psz := Nat.mul_le_mul_right psz h.1
    omega
  refine ⟨part1, fun _ s hs => by have := (part1 s hs).1; omega, ?_⟩
  intro ptr hptr
  have hspec := bisectRight_spec ((spanList pages n ms psz).map Span.start)
    ptr (starts_mono pages n ms psz hpsz)
  have hR : bisectRight ((spanList pages n ms psz).map Span.start) ptr = 0 := by
    by_contra hne
    have h0 : 0 < bisectRight ((spanList pages n ms psz).map Span.start) ptr :=
      Nat.pos_of_ne_zero hne
    have hlep := hspec.1 0 h0
    have hsl : ((spanList pages n ms psz).map Span.start).length =
        (spanList pages n ms psz).length := List.length_map _ _
    have hlen0 : 0 < (spanList pages n ms psz).length := by
      have := hspec.2.2
      omega
    have hmem0 := starts_getD_mem pages n ms psz 0 hlen0
    have hge := part1 _ hmem0.2
    rw [hmem0.1] at hlep
    omega
  unfold SpanChecker.get_span
  rw [mkSpanChecker_starts, hR]
  simp

/-- For a list of spans with pairwise-distinct starts, the dict lookup by
start (`find?`) of a member's start returns exactly that member. -/
theorem find?_start_unique (L : List Span)
    (hp : List.Pairwise (fun u v : Span => u.start < v.start) L)
    (s : Span) (hs : s ∈ L) :
    L.find? (fun t => t.start = s.start) = some s := by
  induction L with
  | nil => cases hs
  | cons a l ih =>
    rcases List.mem_cons.mp hs with rfl | h2
    · simp [List.find?]
    · have ha : a.start < s.start := (List.pairwise_cons.mp hp).1 s h2
      have hfa : (fun t : Span => decide (t.start = s.start)) a = false := by
        simp
        omega
      rw [List.find?]
      simp only [hfa]
      exact ih (List.pairwise_cons.mp hp).2 h2

/-- Claim C3: `get_span` returns the span whose start is the greatest start
at most the queried address exactly when the address lies strictly below
that span's start plus `page_count * page_size`, and none otherwise
(including when no span start is at most the address). -/
theorem get_span_characterization (pages : Nat → Page) (n ms psz ptr : Nat)
    (hpsz : 0 < psz) (s : Span) :
    (mkSpanChecker pages n ms psz).get_span ptr = some s ↔
      (s ∈ spanList pages n ms psz ∧ s.start ≤ ptr ∧
       ptr < s.start + s.page.span_size * psz ∧
       ∀ t ∈ spanList pages n ms psz, t.start ≤ ptr → t.start ≤ s.start) := by
  have hspec := bisectRight_spec ((spanList pages n ms psz).map Span.start)
    ptr (starts_mono pages n ms psz hpsz)
  have hsl : ((spanList pages n ms psz).map Span.start).length =
      (spanList pages n ms psz).length := List.length_map _ _
  have hpair := (spanList_spec pages n ms psz).2 hpsz
  unfold SpanChecker.get_span
  rw [mkSpanChecker_starts, mkSpanChecker_span_list, mkSpanChecker_page_size]
  constructor
  · intro h
    by_cases hR : bisectRight ((spanList pages n ms psz).map Span.start) ptr = 0
    · rw [if_pos hR] at h
      cases h
    · rw [if_neg hR] at h
      have hRpos : 0 < bisectRight ((spanList pages n ms psz).map Span.start) ptr :=
        Nat.pos_of_ne_zero hR
      have hRlt : bisectRight ((spanList pages n ms psz).map Span.start) ptr - 1 <
          (spanList pages n ms psz).length := by
        have := hspec.2.2
        omega
      have hprev := starts_getD_mem pages n ms psz _ hRlt
      cases hfind : (spanList pages n ms psz).find?
          (fun t => t.start = ((spanList pages n ms psz).map Span.start).getD
            (bisectRight ((spanList pages n ms psz).map Span.start) ptr - 1) 0) with
      | none =>
        simp only [hfind] at h
        exact Option.noConfusion h
      | some s2 =>
        simp only [hfind] at h
        by_cases hcond : ((spanList pages n ms psz).map Span.start).getD
            (bisectRight ((spanList pages n ms psz).map Span.start) ptr - 1) 0 +
            s2.page.span_size * psz ≤ ptr
        · rw [if_pos hcond] at h
          cases h
        · rw [if_neg hcond] at h
          have hs2 : s2 = s := by
            have := h
            injection this
          subst hs2
          have hsstart : s2.start =
              ((spanList pages n ms psz).map Span.start).getD
                (bisectRight ((spanList pages n ms psz).map Span.start) ptr - 1) 0 := by
            have := List.find?_some hfind
            simpa using this
          have hsmem : s2 ∈ spanList pages n ms psz :=
            List.mem_of_find?_eq_some hfind
          have hle : s2.start ≤ ptr := by
            rw [hsstart]
            exact hspec.1 _ (by omega)
          refine ⟨hsmem, hle, by omega, ?_⟩
          intro t ht htle
          obtain ⟨j, hj, hjt⟩ := List.mem_iff_getElem.mp ht
          have hjstart : ((spanList pages n ms psz).map Span.start).getD j 0 =
              t.start := by
            rw [(starts_getD_mem pages n ms psz j hj).1, hjt]
          by_cases hjR : bisectRight ((spanList pages n ms psz).map Span.start)
              ptr ≤ j
          · have := hspec.2.1 j hjR (by omega)
            rw [hjstart] at this
            omega
          · have hmono := starts_mono pages n ms psz hpsz j
              (bisectRight ((spanList pages n ms psz).map Span.start) ptr - 1)
              (by omega) (by omega)
            rw [hjstart, ← hsstart] at hmono
            exact hmono
  · rintro ⟨hmem, hle, hlt2, hmax⟩
    obtain ⟨j, hj, hjs⟩ := List.mem_iff_getElem.mp hmem
    have hjstart : ((spanList pages n ms psz).map Span.start).getD j 0 =
        s.start := by
      rw [(starts_getD_mem pages n ms psz j hj).1, hjs]
    have hjR : j < bisectRight ((spanList pages n ms psz).map Span.start) ptr := by
      by_contra hge
      have := hspec.2.1 j (by omega) (by omega)
      rw [hjstart] at this
      omega
    have hRpos : 0 < bisectRight ((spanList pages n ms psz).map Span.start) ptr := by
      omega
    have hRlt : bisectRight ((spanList pages n ms psz).map Span.start) ptr - 1 <
        (spanList pages n ms psz).length := by
      have := hspec.2.2
      omega
    have hprev := starts_getD_mem pages n ms psz _ hRlt
    -- the candidate at position idx-1 has start ≤ ptr, so by maximality its
    -- start equals s.start; by monotonicity s.start ≤ it as well
    have hcandle : (spanList pages n ms psz)[bisectRight
        ((spanList pages n ms psz).map Span.start) ptr - 1].start ≤ ptr := by
      rw [← hprev.1]
      exact hspec.1 _ (by omega)
    have hcand_le_s : (spanList pages n ms psz)[bisectRight
        ((spanList pages n ms psz).map Span.start) ptr - 1].start ≤ s.start :=
      hmax _ hprev.2 hcandle
    have hs_le_cand : s.start ≤ (spanList pages n ms psz)[bisectRight
        ((spanList pages n ms psz).map Span.start) ptr - 1].start := by
      have hmono := starts_mono pages n ms psz hpsz j
        (bisectRight ((spanList pages n ms psz).map Span.start) ptr - 1)
        (by omega) (by omega)
      rw [hjstart, hprev.1] at hmono
      exact hmono
    have hstarteq : ((spanList pages n ms psz).map Span.start).getD
        (bisectRight ((spanList pages n ms psz).map Span.start) ptr - 1) 0 =
        s.start := by
      rw [hprev.1]
      omega
    have hfind : (spanList pages n ms psz).find?
        (fun t => t.start = ((spanList pages n ms psz).map Span.start).getD
          (bisectRight ((spanList pages n ms psz).map Span.start) ptr - 1) 0) =
        some s := by
      rw [hstarteq]
      exact find?_start_unique _ hpair s hmem
    rw [if_neg (by omega)]
    simp only [hfind]
    rw [if_neg (by rw [hstarteq]; omega)]

/-- A concrete page array for the span-table witnesses: page 0 carries a
(nonzero) span length that must be ignored, page 1 starts a 2-page pool
span, page 3 a 1-page span. -/
def witnessPages : Nat → Page := fun i =>
  if i = 0 then ⟨7, false, 0, 0, 0⟩
  else if i = 1 then ⟨2, false, 5, 0, 0⟩
  else if i = 3 then ⟨1, false, 0, 0, 0⟩
  else ⟨0, false, 0, 0, 0⟩

theorem witness_spanList :
    spanList witnessPages 4 0 4096 =
      [⟨1, 4096, ⟨2, false, 5, 0, 0⟩⟩, ⟨3, 12288, ⟨1, false, 0, 0, 0⟩⟩] := by
  rw [spanList]
  rw [spansFrom, dif_pos (by norm_num), dif_neg (by norm_num [witnessPages])]
  rw [show (witnessPages 1).span_size = 2 by norm_num [witnessPages]]
  rw [spansFrom, dif_pos (by norm_num), dif_neg (by norm_num [witnessPages])]
  rw [show (witnessPages 3).span_size = 1 by norm_num [witnessPages]]
  rw [spansFrom, dif_neg (by norm_num)]
  norm_num [witnessPages]

/-- Witness for C3: in the concrete table, address 5000 falls in the span
starting at 4096 (two pages of 4096 bytes), and `get_span` returns it. -/
theorem get_span_characterization_witness :
    (mkSpanChecker witnessPages 4 0 4096).get_span 5000 =
      some ⟨1, 4096, ⟨2, false, 5, 0, 0⟩⟩ := by
  refine (get_span_characterization witnessPages 4 0 4096 5000 (by norm_num)
    ⟨1, 4096, ⟨2, false, 5, 0, 0⟩⟩).mpr ?_
  rw [witness_spanList]
  refine ⟨by simp, by norm_num, by norm_num, ?_⟩
  intro t ht htle
  rcases List.mem_cons.mp ht with rfl | ht2
  · norm_num
  · rcases List.mem_cons.mp ht2 with rfl | ht3
    · norm_num at htle
    · cases ht3

/-- Witness for C10: in the same concrete table (whose page 0 records the
nonzero span length 7), every span starts at page 1 or later and an address
inside the first page resolves to no span. -/
theorem span_scan_starts_at_page_one_witness :
    (∀ s ∈ spanList witnessPages 4 0 4096, 1 ≤ s.index ∧ 4096 ≤ s.start) ∧
    (witnessPages 0).span_size ≠ 0 ∧
    (mkSpanChecker witnessPages 4 0 4096).get_span 100 = none := by
  have h := span_scan_starts_at_page_one witnessPages 4 0 4096 (by norm_num)
  refine ⟨fun s hs => ?_, by norm_num [witnessPages], h.2.2 100 (by norm_num)⟩
  have := h.1 s hs
  omega

/-! #### Pointer classifier (claim C1) -/

theorem freeListCovers_of_chain (mem : Nat → Nat) (object_size ptr : Nat) :
    ∀ (fuel head : Nat) (l : List Nat),
      chainNodes mem fuel head = some l →
      ∃ b, freeListCovers mem object_size ptr fuel head = some b ∧
        (b = true ↔ ∃ node ∈ l, node ≤ ptr ∧ ptr < node + object_size) := by
  intro fuel
  induction fuel with
  | zero =>
    intro head l hl
    rw [chainNodes] at hl
    by_cases h0 : head = 0
    · rw [if_pos h0] at hl
      injection hl with hl2
      subst hl2
      rw [freeListCovers, if_pos h0]
      exact ⟨false, rfl, by simp⟩
    · rw [if_neg h0] at hl
      cases hl
  | succ fuel ih =>
    intro head l hl
    rw [chainNodes] at hl
    by_cases h0 : head = 0
    · rw [if_pos h0] at hl
      injection hl with hl2
      subst hl2
      rw [freeListCovers, if_pos h0]
      exact ⟨false, rfl, by simp⟩
    · rw [if_neg h0] at hl
      cases hrec : chainNodes mem fuel (mem head) with
      | none => rw [hrec] at hl; cases hl
      | some l2 =>
        rw [hrec] at hl
        have hl2 : head :: l2 = l := by simpa using hl
        subst hl2
        rw [freeListCovers, if_neg h0]
        by_cases hcov : head ≤ ptr ∧ ptr < head + object_size
        · rw [if_pos hcov]
          exact ⟨true, rfl, by simp [hcov]⟩
        · rw [if_neg hcov]
          obtain ⟨b, hb1, hb2⟩ := ih (mem head) l2 hrec
          refine ⟨b, hb1, ?_⟩
          rw [hb2]
          constructor
          · rintro ⟨node, hn1, hn2⟩
            exact ⟨node, List.mem_cons_of_mem _ hn1, hn2⟩
          · rintro ⟨node, hn1, hn2⟩
            rcases List.mem_cons.mp hn1 with rfl | hn3
            · exact absurd hn2 hcov
            · exact ⟨node, hn3, hn2⟩

/-- Claim C1: for an address inside the used prefix of a small-object-pool
span, `analyze` reports size = the pool's `_object_size`, marks the address
small, classifies it Free exactly when it lies inside an object slot
reachable from the pool-level free list or from the per-span free list
(walked to completion), and otherwise classifies it Live with
`offset_in_object = (offset in span) % object_size`. -/
theorem small_pool_classification (mem : Nat → Nat)
    (fuel ptr spanStart usedBytes object_size poolFree spanFreelist : Nat)
    (poolChain spanChain : List Nat)
    (hpool : chainNodes mem fuel poolFree = some poolChain)
    (hspan : chainNodes mem fuel spanFreelist = some spanChain)
    (_hstart : spanStart ≤ ptr)
    (hused : ptr - spanStart < usedBytes) :
    ∃ m, analyzeSmall mem fuel ptr spanStart usedBytes object_size poolFree
        spanFreelist = some m ∧
      m.size = object_size ∧ m.is_small = true ∧
      m.is_containing_page_free = false ∧
      (m.is_live = false ↔
        ∃ node ∈ poolChain ++ spanChain,
          node ≤ ptr ∧ ptr < node + object_size) ∧
      (m.is_live = true →
        m.offset_in_object = (ptr - spanStart) % object_size) := by
  obtain ⟨b1, hb1, hiff1⟩ :=
    freeListCovers_of_chain mem object_size ptr fuel poolFree poolChain hpool
  obtain ⟨b2, hb2, hiff2⟩ :=
    freeListCovers_of_chain mem object_size ptr fuel spanFreelist spanChain hspan
  unfold analyzeSmall
  rw [if_neg (by omega)]
  rw [hb1]
  cases b1 with
  | true =>
    refine ⟨_, rfl, rfl, rfl, rfl, ?_, by simp⟩
    simp only [true_iff]
    obtain ⟨node, hn1, hn2⟩ := hiff1.mp rfl
    exact ⟨node, List.mem_append_left _ hn1, hn2⟩
  | false =>
    rw [hb2]
    cases b2 with
    | true =>
      refine ⟨_, rfl, rfl, rfl, rfl, ?_, by simp⟩
      simp only [true_iff]
      obtain ⟨node, hn1, hn2⟩ := hiff2.mp rfl
      exact ⟨node, List.mem_append_right _ hn1, hn2⟩
    | false =>
      refine ⟨_, rfl, rfl, rfl, rfl, ?_, by simp⟩
      simp only [Bool.true_eq_false, false_iff]
      rintro ⟨node, hn1, hn2⟩
      rcases List.mem_append.mp hn1 with hn3 | hn3
      · exact absurd (hiff1.mpr ⟨node, hn3, hn2⟩) (by simp)
      · exact absurd (hiff2.mpr ⟨node, hn3, hn2⟩) (by simp)

/-- Witness for C1: a 64-byte pool whose free list is the single slot at
4160; the address 4170 lies inside that slot and classifies Free, while
4100 classifies Live with offset 4 in its object. -/
theorem small_pool_classification_witness :
    (∃ m, analyzeSmall (fun _ => 0) 3 4170 4096 8192 64 4160 0 = some m ∧
      m.is_live = false) ∧
    (∃ m, analyzeSmall (fun _ => 0) 3 4100 4096 8192 64 4160 0 = some m ∧
      m.is_live = true ∧ m.offset_in_object = 4) := by
  constructor
  · obtain ⟨m, h1, _h2, _h3, _h4, h5, _h6⟩ :=
      small_pool_classification (fun _ => 0) 3 4170 4096 8192 64 4160 0
        [4160] [] (by decide) (by decide) (by omega) (by omega)
    exact ⟨m, h1, h5.mpr ⟨4160, by simp, by omega, by omega⟩⟩
  · obtain ⟨m, h1, _h2, _h3, _h4, h5, h6⟩ :=
      small_pool_classification (fun _ => 0) 3 4100 4096 8192 64 4160 0
        [4160] [] (by decide) (by decide) (by omega) (by omega)
    have hlive : m.is_live = true := by
      by_contra hfalse
      have := h5.mp (by
        cases hb : m.is_live
        · rfl
        · exact absurd hb hfalse)
      obtain ⟨node, hn1, hn2⟩ := this
      simp at hn1
      omega
    refine ⟨m, h1, hlive, ?_⟩
    have := h6 hlive
    rw [this]

/-! #### Heap-profile collapsing pass (claim C8) -/

/-- `s` is `t` itself or a node of the tree rooted at `t`. -/
inductive IsSubtree : ProfNode → ProfNode → Prop where
  | refl (t : ProfNode) : IsSubtree t t
  | step {s c t : ProfNode} : c ∈ t.children → IsSubtree s c → IsSubtree s t

theorem IsSubtree.trans {a b c : ProfNode}
    (hab : IsSubtree a b) (hbc : IsSubtree b c) : IsSubtree a c := by
  induction hbc with
  | refl => exact hab
  | step hmem _hsub ih => exact IsSubtree.step hmem ih

theorem nodeCount_children_lt {c : ProfNode} {t : ProfNode}
    (h : c ∈ t.children) : nodeCount c < nodeCount t := by
  cases t with
  | node k s cnt tl cs =>
    simp only [ProfNode.children] at h
    have := nodeCountList_mem_lt h
    simp only [nodeCount]
    omega

/-- The squashing loop exits only when its own condition fails: its result
never again has exactly one child with its own `(size, count)`. -/
theorem collapseLoop_exit :
    ∀ (n : Nat) (t : ProfNode), nodeCount t ≤ n →
      ¬ squashable (collapseLoop t) := by
  intro n
  induction n with
  | zero =>
    intro t h
    cases t with
    | node k s c tl cs => simp [nodeCount] at h
  | succ n ih =>
    intro t h
    cases t with
    | node k s c tl cs =>
      match cs with
      | [] =>
        rw [collapseLoop_nil]
        unfold squashable
        simp
      | d :: e :: rest =>
        rw [collapseLoop_multi]
        unfold squashable
        simp
      | [child] =>
        rw [collapseLoop_single]
        by_cases hc : s = child.size ∧ c = child.count
        · rw [if_pos hc]
          cases child with
          | node k2 s2 c2 tl2 cs2 =>
            refine ih (ProfNode.node k s c (tl ++ [ProfNode.key (.node k2 s2 c2 tl2 cs2)]) (ProfNode.children (.node k2 s2 c2 tl2 cs2))) ?_
            simp only [nodeCount, nodeCountList, ProfNode.children] at h ⊢
            omega
        · rw [if_neg hc]
          unfold squashable
          simpa using hc

/-- Shape of the loop result: key, size and count are kept, the squashed
keys are appended to the tail in merge order, and some child list remains. -/
theorem collapseLoop_shape :
    ∀ (n : Nat) (t : ProfNode), nodeCount t ≤ n →
      ∃ cs2, collapseLoop t =
        .node t.key t.size t.count
          (t.tail ++ squashKeys t.size t.count t.children) cs2 := by
  intro n
  induction n with
  | zero =>
    intro t h
    cases t with
    | node k s c tl cs => simp [nodeCount] at h
  | succ n ih =>
    intro t h
    cases t with
    | node k s c tl cs =>
      simp only [ProfNode.key, ProfNode.size, ProfNode.count, ProfNode.tail,
        ProfNode.children]
      match cs with
      | [] =>
        rw [collapseLoop_nil, squashKeys_nil]
        exact ⟨[], by simp⟩
      | d :: e :: rest =>
        rw [collapseLoop_multi, squashKeys_multi]
        exact ⟨d :: e :: rest, by simp⟩
      | [child] =>
        rw [collapseLoop_single, squashKeys_single]
        by_cases hc : s = child.size ∧ c = child.count
        · rw [if_pos hc, if_pos hc]
          cases child with
          | node k2 s2 c2 tl2 cs2 =>
            have hcount : nodeCount (ProfNode.node k s c
                (tl ++ [ProfNode.key (.node k2 s2 c2 tl2 cs2)])
                (ProfNode.children (.node k2 s2 c2 tl2 cs2))) ≤ n := by
              simp only [nodeCount, nodeCountList, ProfNode.children] at h ⊢
              omega
            obtain ⟨cs2x, hcs2⟩ := ih _ hcount
            refine ⟨cs2x, ?_⟩
            rw [hcs2]
            simp only [ProfNode.key, ProfNode.size, ProfNode.count,
              ProfNode.tail, ProfNode.children]
            simp [List.append_assoc]
        · rw [if_neg hc, if_neg hc]
          exact ⟨[child], by simp⟩

/-- Every child list the loop leaves behind is the child list of some node
of the original tree. -/
theorem collapseLoop_children_sub :
    ∀ (n : Nat) (t : ProfNode), nodeCount t ≤ n →
      ∀ c2 ∈ (collapseLoop t).children,
        ∃ d, IsSubtree d t ∧ c2 ∈ d.children := by
  intro n
  induction n with
  | zero =>
    intro t h
    cases t with
    | node k s c tl cs => simp [nodeCount] at h
  | succ n ih =>
    intro t h
    cases t with
    | node k s c tl cs =>
      match cs with
      | [] =>
        rw [collapseLoop_nil]
        exact fun c2 hc2 => ⟨_, IsSubtree.refl _, hc2⟩
      | d :: e :: rest =>
        rw [collapseLoop_multi]
        exact fun c2 hc2 => ⟨_, IsSubtree.refl _, hc2⟩
      | [child] =>
        rw [collapseLoop_single]
        by_cases hc : s = child.size ∧ c = child.count
        · rw [if_pos hc]
          intro c2 hc2
          cases child with
          | node k2 s2 c2x tl2 cs2 =>
            have hcount : nodeCount (ProfNode.node k s c
                (tl ++ [ProfNode.key (.node k2 s2 c2x tl2 cs2)])
                (ProfNode.children (.node k2 s2 c2x tl2 cs2))) ≤ n := by
              simp only [nodeCount, nodeCountList, ProfNode.children] at h ⊢
              omega
            obtain ⟨d, hd1, hd2⟩ := ih _ hcount c2 hc2
            have hchild_mem : (ProfNode.node k2 s2 c2x tl2 cs2) ∈
                (ProfNode.node k s c tl [ProfNode.node k2 s2 c2x tl2 cs2]).children := by
              simp [ProfNode.children]
            cases hd1 with
            | refl =>
              exact ⟨ProfNode.node k2 s2 c2x tl2 cs2, IsSubtree.step hchild_mem
                (IsSubtree.refl _), by simpa [ProfNode.children] using hd2⟩
            | step hmem hsub =>
              rename_i cmid
              have hcmid : cmid ∈ (ProfNode.node k2 s2 c2x tl2 cs2).children := by
                simpa [ProfNode.children] using hmem
              exact ⟨d, IsSubtree.trans hsub (IsSubtree.step hchild_mem
                (IsSubtree.step hcmid (IsSubtree.refl _))), hd2⟩
        · rw [if_neg hc]
          exact fun c2 hc2 => ⟨_, IsSubtree.refl _, hc2⟩

theorem collapse_similar_eq (k s c : Nat) (tl : List Nat)
    (cs : List ProfNode) (t : ProfNode)
    (h : collapseLoop t = .node k s c tl cs) :
    collapse_similar t =
      .node k s c tl (cs.attach.map (fun c2 => collapse_similar c2.1)) := by
  rw [collapse_similar]
  split
  rename_i k2 s2 c2 tl2 cs2 heq
  rw [h] at heq
  injection heq with h1 h2 h3 h4 h5
  subst h1
  subst h2
  subst h3
  subst h4
  subst h5
  rfl

/-- `collapse_similar` keeps the root's key, size and count, and appends the
squashed keys to its tail in merge order. -/
theorem collapse_similar_root (t : ProfNode) :
    ∃ cs2, collapse_similar t =
      .node t.key t.size t.count
        (t.tail ++ squashKeys t.size t.count t.children) cs2 := by
  obtain ⟨cs2, hcs2⟩ := collapseLoop_shape (nodeCount t) t (le_refl _)
  exact ⟨_, collapse_similar_eq _ _ _ _ _ _ hcs2⟩

theorem collapse_aux :
    ∀ (n : Nat) (t : ProfNode), nodeCount t ≤ n →
      ∀ s2, IsSubtree s2 (collapse_similar t) →
        (¬ squashable s2) ∧
        ∃ s0, IsSubtree s0 t ∧ s2.key = s0.key ∧ s2.size = s0.size ∧
          s2.count = s0.count ∧
          s2.tail = s0.tail ++ squashKeys s0.size s0.count s0.children := by
  intro n
  induction n with
  | zero =>
    intro t h
    cases t with
    | node k s c tl cs => simp [nodeCount] at h
  | succ n ih =>
    intro t h s2 hs
    obtain ⟨cs2, hshape⟩ := collapseLoop_shape (nodeCount t) t (le_refl _)
    have hC := collapse_similar_eq _ _ _ _ _ _ hshape
    rw [hC] at hs
    cases hs with
    | refl =>
      constructor
      · -- the root of the collapsed tree is not squashable
        intro hsq
        unfold squashable at hsq
        revert hsq
        simp only [ProfNode.size, ProfNode.count, ProfNode.children]
        cases hcs2 : cs2.attach.map (fun c2 => collapse_similar c2.1) with
        | nil => simp
        | cons c1x rest =>
          cases rest with
          | cons c2x rest2 => simp
          | nil =>
            simp only []
            rintro ⟨hsz, hcnt⟩
            -- cs2 is a one-element list and its collapse keeps size/count
            have hlen : cs2.length = 1 := by
              have := congrArg List.length hcs2
              simpa using this
            match cs2, hlen with
            | [c1], _ =>
              have hc1x : c1x = collapse_similar c1 := by
                simp only [List.attach, List.attachWith, List.map_cons,
                  List.map_nil] at hcs2
                injection hcs2 with h1 h2
                exact h1.symm
              obtain ⟨csr, hr⟩ := collapse_similar_root c1
              have hexit := collapseLoop_exit (nodeCount t) t (le_refl _)
              rw [hshape] at hexit
              unfold squashable at hexit
              simp only [ProfNode.size, ProfNode.count] at hexit
              refine hexit ?_
              subst hc1x
              rw [hr] at hsz hcnt
              simp only [ProfNode.size, ProfNode.count] at hsz hcnt
              exact ⟨hsz, hcnt⟩
      · refine ⟨t, IsSubtree.refl _, ?_⟩
        simp [ProfNode.key, ProfNode.size, ProfNode.count, ProfNode.tail]
    | step hmem hsub =>
      rename_i cmid
      simp only [ProfNode.children] at hmem
      obtain ⟨⟨c1, hc1mem⟩, _hm1, hm2⟩ := List.mem_map.mp hmem
      have hc1lt : nodeCount c1 < nodeCount t := by
        have h1 : c1 ∈ (collapseLoop t).children := by
          rw [hshape]
          simpa [ProfNode.children] using hc1mem
        have h2 := nodeCount_children_lt h1
        have h3 := collapseLoop_count_le t
        omega
      have hm2x : collapse_similar c1 = cmid := hm2
      have hres := ih c1 (by omega) s2 (by rw [← hm2x] at hsub; exact hsub)
      refine ⟨hres.1, ?_⟩
      obtain ⟨s0, hs0sub, hrest⟩ := hres.2
      -- c1 is a node of the original tree
      have hc1t : IsSubtree c1 t := by
        obtain ⟨d, hd1, hd2⟩ := collapseLoop_children_sub (nodeCount t) t
          (le_refl _) c1 (by rw [hshape]; simpa [ProfNode.children] using hc1mem)
        exact IsSubtree.trans (IsSubtree.step hd2 (IsSubtree.refl _)) hd1
      exact ⟨s0, IsSubtree.trans hs0sub hc1t, hrest⟩

/-- Claim C8: after the collapsing pass, no remaining node has exactly one
child with its own `(size, count)`; every remaining node corresponds to a
node of the original tree with the same key, size and count, and its
collapsed-keys list is the original tail with the merged children's keys
appended in merge order. -/
theorem heap_profile_collapse (t s2 : ProfNode)
    (hs : IsSubtree s2 (collapse_similar t)) :
    (¬ squashable s2) ∧
    ∃ s0, IsSubtree s0 t ∧ s2.key = s0.key ∧ s2.size = s0.size ∧
      s2.count = s0.count ∧
      s2.tail = s0.tail ++ squashKeys s0.size s0.count s0.children :=
  collapse_aux (nodeCount t) t (le_refl _) s2 hs

/-- A three-node chain whose middle node shares the root's `(size, count)`:
the collapse pass merges the middle node into the root. -/
def witnessTree : ProfNode :=
  .node 0 5 2 [] [.node 1 5 2 [] [.node 2 3 1 [] []]]

/-- Witness for C8, applying the theorem to the collapsed root of the
concrete chain. -/
theorem heap_profile_collapse_witness :
    (¬ squashable (collapse_similar witnessTree)) ∧
    ∃ s0, IsSubtree s0 witnessTree ∧
      (collapse_similar witnessTree).key = s0.key ∧
      (collapse_similar witnessTree).size = s0.size ∧
      (collapse_similar witnessTree).count = s0.count ∧
      (collapse_similar witnessTree).tail =
        s0.tail ++ squashKeys s0.size s0.count s0.children :=
  heap_profile_collapse witnessTree (collapse_similar witnessTree)
    (IsSubtree.refl _)

/-! #### Fiber walker (claims C4, C5) -/

/-- Counterexample to C4 as stated: for a 16-byte task object the scan
probes byte offsets 8 and 16, and offset 16 is not strictly less than the
object's size — the probed region extends one word past the object's body
whenever the size is a multiple of the word size
(`region_end = ptr + 8 + (size - size % 8)`). -/
theorem fiber_scan_offsets_counterexample :
    probedAddrs 0 16 = [8, 16] ∧
    ¬ (∀ a ∈ probedAddrs 0 16, 8 ≤ a - 0 ∧ a - 0 < 16) := by
  constructor
  · rfl
  · intro h
    have h16 := (h 16 (by rw [show probedAddrs 0 16 = [8, 16] from rfl]; simp)).2
    omega

theorem scanWords_skip (probe : Nat → Option TaskMeta) (mem : Nat → Nat)
    (md : Int) (fuel i : Nat) (tm : TaskMeta) :
    ∀ (l1 : List Nat) (a : Nat) (l2 : List Nat),
      (∀ b ∈ l1, probe (mem b) = none) →
      probe (mem a) = some tm →
      scanWords probe mem md fuel (l1 ++ a :: l2) i =
        (do_walk probe mem md fuel tm (i + 1)).map
          (fun fiber => fiber ++ [mem a]) := by
  intro l1
  induction l1 with
  | nil =>
    intro a l2 _hnone hsome
    rw [List.nil_append, scanWords, hsome]
  | cons b bs ih =>
    intro a l2 hnone hsome
    rw [List.cons_append, scanWords, hnone b (by simp)]
    exact ih a l2 (fun x hx => hnone x (by simp [hx])) hsome

/-- Amended C4: every probed word lies at a byte offset that is a positive
multiple of the machine word size, at least one word and at most
`8 * (size / 8)` from the object's start — i.e. the last probed word may
begin exactly at the object's size when the size is word-aligned, one word
beyond the body; and the first probed word that passes the acceptance test
(all earlier probes failing) is the successor that is followed, regardless
of the remaining candidates. -/
theorem fiber_scan_first_match (probe : Nat → Option TaskMeta)
    (mem : Nat → Nat) (md : Int) (fuel i : Nat) (meta : TaskMeta) :
    (∀ a ∈ probedAddrs meta.ptr meta.size,
      meta.ptr + 8 ≤ a ∧ a ≤ meta.ptr + 8 * (meta.size / 8) ∧
      (a - meta.ptr) % 8 = 0) ∧
    (∀ (l1 : List Nat) (a : Nat) (l2 : List Nat) (tm : TaskMeta),
      probedAddrs meta.ptr meta.size = l1 ++ a :: l2 →
      (∀ b ∈ l1, probe (mem b) = none) →
      probe (mem a) = some tm →
      ¬ (md > -1 ∧ (i : Int) ≥ md) →
      do_walk probe mem md (fuel + 1) meta i =
        (do_walk probe mem md fuel tm (i + 1)).map
          (fun fiber => fiber ++ [mem a])) := by
  constructor
  · intro a ha
    unfold probedAddrs at ha
    rw [List.mem_range'] at ha
    obtain ⟨j, hj1, hj2⟩ := ha
    subst hj2
    omega
  · intro l1 a l2 tm hdecomp hnone hsome hdepth
    rw [do_walk, if_neg hdepth, hdecomp]
    exact scanWords_skip probe mem md fuel i tm l1 a l2 hnone hsome

/-- Witness for the amended C4 in the planted two-task chain: task 1 at
4096 (size 16) probes offsets 8 and 16; the word at offset 8 holds task 2's
address and is followed immediately. -/
theorem fiber_scan_first_match_witness :
    (4096 + 8 ≤ 4104 ∧ 4104 ≤ 4096 + 8 * (16 / 8) ∧ (4104 - 4096) % 8 = 0) ∧
    do_walk (chainProbe 2) (chainMem 2) (-1) 4 ⟨4096, 16⟩ 0 =
      (do_walk (chainProbe 2) (chainMem 2) (-1) 3 ⟨8192, 16⟩ 1).map
        (fun fiber => fiber ++ [chainMem 2 4104]) := by
  have h := fiber_scan_first_match (chainProbe 2) (chainMem 2) (-1) 3 0
    ⟨4096, 16⟩
  refine ⟨h.1 4104 (by decide), ?_⟩
  exact h.2 [] 4104 [4112] ⟨8192, 16⟩ (by decide) (by simp) (by decide)
    (by decide)

theorem chainMem_hop (K j : Nat) (h1 : 1 ≤ j) (h2 : j < K) :
    chainMem K (4096 * j + 8) = 4096 * (j + 1) := by
  unfold chainMem
  rw [if_pos]
  · omega
  constructor
  · omega
  · have : 4096 * j + 4096 ≤ 4096 * K := by
      have : 4096 * (j + 1) ≤ 4096 * K := Nat.mul_le_mul_left _ (by omega)
      omega
    omega

theorem chainMem_tailword (K j : Nat) (h1 : 1 ≤ j) (h2 : j ≤ K) :
    chainMem K (4096 * j + 16) = 1 := by
  unfold chainMem
  rw [if_neg]
  omega

theorem chainMem_endword (K : Nat) (h1 : 1 ≤ K) :
    chainMem K (4096 * K + 8) = 1 := by
  unfold chainMem
  rw [if_neg]
  omega

theorem chainProbe_hit (K j : Nat) (h1 : 1 ≤ j) (h2 : j ≤ K) :
    chainProbe K (4096 * j) = some ⟨4096 * j, 16⟩ := by
  unfold chainProbe
  rw [if_pos]
  refine ⟨by omega, by omega, Nat.mul_le_mul_left _ h2⟩

theorem chainProbe_one (K : Nat) : chainProbe K 1 = none := by
  unfold chainProbe
  rw [if_neg]
  omega

theorem chain_probedAddrs (j : Nat) :
    probedAddrs (4096 * j) 16 = [4096 * j + 8, 4096 * j + 16] := by
  unfold probedAddrs
  norm_num [List.range']

/-- The planted-chain run of `_do_walk`: starting at task `j` of `K`, the
walk returns the `K - j` tasks deeper in the chain, innermost first. -/
theorem chain_do_walk (K : Nat) (md : Int) (hmd : (K : Int) ≤ md) :
    ∀ (d j fuel : Nat), 1 ≤ j → j ≤ K → K - j = d → d < fuel →
      ∃ l, do_walk (chainProbe K) (chainMem K) md fuel ⟨4096 * j, 16⟩
          (j - 1) = some l ∧ l.length = K - j := by
  intro d
  induction d with
  | zero =>
    intro j fuel h1 h2 hd hfuel
    have hjK : j = K := by omega
    subst hjK
    match fuel, hfuel with
    | f + 1, _ =>
      have hdepth : ¬ (md > -1 ∧ ((j - 1 : Nat) : Int) ≥ md) := by
        rintro ⟨_h1, h2x⟩
        have : ((j - 1 : Nat) : Int) < (j : Int) := by
          have : (1 : Nat) ≤ j := h1
          omega
        omega
      rw [do_walk, if_neg hdepth, chain_probedAddrs]
      rw [scanWords, chainMem_endword _ h1]
      simp only [chainProbe_one]
      rw [scanWords, chainMem_tailword _ _ h1 (le_refl _)]
      simp only [chainProbe_one]
      rw [scanWords]
      exact ⟨[], rfl, by simp⟩
  | succ d ih =>
    intro j fuel h1 h2 hd hfuel
    have hjlt : j < K := by omega
    match fuel, hfuel with
    | f + 1, hfuel =>
      have hdepth : ¬ (md > -1 ∧ ((j - 1 : Nat) : Int) ≥ md) := by
        rintro ⟨_h1, h2x⟩
        have hlt : ((j - 1 : Nat) : Int) < (K : Int) := by
          have : j - 1 < K := by omega
          exact_mod_cast this
        omega
      rw [do_walk, if_neg hdepth, chain_probedAddrs]
      rw [scanWords, chainMem_hop _ _ h1 hjlt]
      simp only [chainProbe_hit K (j + 1) (by omega) (by omega)]
      obtain ⟨l, hl, hlen⟩ := ih (j + 1) f (by omega) (by omega) (by omega)
        (by omega)
      rw [show j + 1 - 1 = j by omega] at hl
      rw [show (j - 1) + 1 = j by omega]
      rw [hl]
      exact ⟨l ++ [4096 * (j + 1)], rfl, by simp [hlen]; omega⟩

/-- Claim C5 (against the planted chain): for a chain of `K` recognizable
tasks ending in an unrecognized object, `_walk` yields `K` entries in total
(the starting task plus `K - 1` walked successors) for every
`max_depth ≥ K`; with `max_depth = 0` it yields the starting task with an
empty fiber.  When the starting address fails the acceptance test, however,
the source prints the "not a task pointer" message and then evaluates
`this_task[0]` with `this_task = None`, raising a `TypeError` instead of
returning an empty chain — the third conjunct evaluates the code at that
failing input. -/
theorem fiber_walk_planted (K : Nat) (md : Int) (fuel : Nat)
    (hK : 1 ≤ K) (hmd : (K : Int) ≤ md) (hfuel : K ≤ fuel) :
    (∃ l, walk (chainProbe K) (chainMem K) fuel 4096 md =
        some (.ok ⟨4096, 16⟩ l) ∧ 1 + l.length = K) ∧
    (0 < fuel → walk (chainProbe K) (chainMem K) fuel 4096 0 =
      some (.ok ⟨4096, 16⟩ [])) ∧
    walk (chainProbe K) (chainMem K) fuel 1 md = some .typeError := by
  have hprobe1 : chainProbe K 4096 = some ⟨4096, 16⟩ := by
    have := chainProbe_hit K 1 (le_refl _) hK
    simpa using this
  refine ⟨?_, ?_, ?_⟩
  · obtain ⟨l, hl, hlen⟩ := chain_do_walk K md hmd (K - 1) 1 fuel
      (le_refl _) hK (by omega) (by omega)
    have hl2 : do_walk (chainProbe K) (chainMem K) md fuel ⟨4096, 16⟩ 0 =
        some l := by simpa using hl
    unfold walk
    simp only [hprobe1, hl2]
    exact ⟨l.reverse, rfl, by simp [hlen]; omega⟩
  · intro hf
    unfold walk
    simp only [hprobe1]
    match fuel, hf with
    | f + 1, _ =>
      rw [do_walk, if_pos (by norm_num)]
      rfl
  · unfold walk
    simp only [chainProbe_one]

/-- Witness for C5 at `K = 3`, `max_depth = 5`, fuel 10. -/
theorem fiber_walk_planted_witness :
    (∃ l, walk (chainProbe 3) (chainMem 3) 10 4096 5 =
        some (.ok ⟨4096, 16⟩ l) ∧ 1 + l.length = 3) ∧
    walk (chainProbe 3) (chainMem 3) 10 4096 0 = some (.ok ⟨4096, 16⟩ []) ∧
    walk (chainProbe 3) (chainMem 3) 10 1 5 = some .typeError := by
  have h := fiber_walk_planted 3 5 10 (by norm_num) (by norm_num) (by norm_num)
  exact ⟨h.1, h.2.1 (by norm_num), h.2.2⟩

/-! #### Object-graph builder (claim C6) -/

section ObjectGraph

variable (toracle : Nat → Bool) (timeoutOn : Bool) (mv : Int) (cur : Nat)

/-- `stop` is never reset by the inner scan loop. -/
theorem processFinds_stop_mono :
    ∀ (rs : List (Nat × Nat)) (st : BfsState),
      (processFinds toracle timeoutOn mv cur rs st).stop = false →
      st.stop = false := by
  intro rs
  induction rs with
  | nil => intro st h; exact h
  | cons p rest ih =>
    intro st h
    obtain ⟨next_obj, next_off⟩ := p
    rw [processFinds] at h
    by_cases hfired : timeoutOn ∧ toracle st.tchecks = true
    · rw [if_pos hfired] at h
      simp at h
    · rw [if_neg hfired] at h
      by_cases hseen : next_obj ∈ (if timeoutOn then { st with tchecks := st.tchecks + 1 } else st).vertices
      · rw [if_pos hseen] at h
        have := ih _ h
        by_cases ht : timeoutOn = true <;> simp [ht] at this ⊢ <;> exact this
      · rw [if_neg hseen] at h
        by_cases hbound : mv > 0 ∧ mv ≤ ((((if timeoutOn then { st with tchecks := st.tchecks + 1 } else st).vertices) ++ [next_obj]).length : Int)
        · rw [if_pos hbound] at h
          simp at h
        · rw [if_neg hbound] at h
          have := ih _ h
          by_cases ht : timeoutOn = true <;> simp [ht] at this ⊢ <;> exact this

/-- The inner scan loop never removes vertices. -/
theorem processFinds_len_mono :
    ∀ (rs : List (Nat × Nat)) (st : BfsState),
      st.vertices.length ≤ (processFinds toracle timeoutOn mv cur rs st).vertices.length := by
  intro rs
  induction rs with
  | nil => intro st; exact le_refl _
  | cons p rest ih =>
    intro st
    obtain ⟨next_obj, next_off⟩ := p
    rw [processFinds]
    by_cases hfired : timeoutOn ∧ toracle st.tchecks = true
    · rw [if_pos hfired]
      by_cases ht : timeoutOn = true <;> simp [ht]
    · rw [if_neg hfired]
      by_cases hseen : next_obj ∈ (if timeoutOn then { st with tchecks := st.tchecks + 1 } else st).vertices
      · rw [if_pos hseen]
        refine le_trans ?_ (ih _)
        by_cases ht : timeoutOn = true <;> simp [ht]
      · rw [if_neg hseen]
        by_cases hbound : mv > 0 ∧ mv ≤ ((((if timeoutOn then { st with tchecks := st.tchecks + 1 } else st).vertices) ++ [next_obj]).length : Int)
        · rw [if_pos hbound]
          by_cases ht : timeoutOn = true <;> simp [ht]
        · rw [if_neg hbound]
          refine le_trans ?_ (ih _)
          by_cases ht : timeoutOn = true <;> simp [ht]

/-- Vertices and the next-level list grow in lock-step. -/
theorem processFinds_pairing :
    ∀ (rs : List (Nat × Nat)) (st : BfsState),
      (processFinds toracle timeoutOn mv cur rs st).next_objects.length +
        st.vertices.length =
      (processFinds toracle timeoutOn mv cur rs st).vertices.length +
        st.next_objects.length := by
  intro rs
  induction rs with
  | nil =>
    intro st
    rw [processFinds]
    omega
  | cons p rest ih =>
    intro st
    obtain ⟨next_obj, next_off⟩ := p
    rw [processFinds]
    by_cases hfired : timeoutOn ∧ toracle st.tchecks = true
    · rw [if_pos hfired]
      by_cases ht : timeoutOn = true <;> simp [ht] <;> omega
    · rw [if_neg hfired]
      by_cases hseen : next_obj ∈ (if timeoutOn then { st with tchecks := st.tchecks + 1 } else st).vertices
      · rw [if_pos hseen]
        have := ih ({ (if timeoutOn then { st with tchecks := st.tchecks + 1 } else st) with
          edges := (if timeoutOn then { st with tchecks := st.tchecks + 1 } else st).edges ++ [((next_obj, cur), next_off)] })
        by_cases ht : timeoutOn = true <;> simp [ht] at this ⊢ <;> omega
      · rw [if_neg hseen]
        by_cases hbound : mv > 0 ∧ mv ≤ ((((if timeoutOn then { st with tchecks := st.tchecks + 1 } else st).vertices) ++ [next_obj]).length : Int)
        · rw [if_pos hbound]
          by_cases ht : timeoutOn = true <;> simp [ht] <;> omega
        · rw [if_neg hbound]
          have := ih ({ (if timeoutOn then { st with tchecks := st.tchecks + 1 } else st) with
            edges := (if timeoutOn then { st with tchecks := st.tchecks + 1 } else st).edges ++ [((next_obj, cur), next_off)],
            vertices := (if timeoutOn then { st with tchecks := st.tchecks + 1 } else st).vertices ++ [next_obj],
            next_objects := (if timeoutOn then { st with tchecks := st.tchecks + 1 } else st).next_objects ++ [next_obj] })
          by_cases ht : timeoutOn = true <;> simp [ht] at this ⊢ <;> omega

/-- Once the vertex bound has been reached (`mv ≤ len + 1`), one referrer's
scan adds at most one vertex: the first new vertex trips the bound check. -/
theorem processFinds_after_bound (hmv : 1 ≤ mv) :
    ∀ (rs : List (Nat × Nat)) (st : BfsState),
      mv ≤ (st.vertices.length : Int) + 1 →
      ((processFinds toracle timeoutOn mv cur rs st).vertices.length : Int) ≤
        (st.vertices.length : Int) + 1 := by
  intro rs
  induction rs with
  | nil =>
    intro st _h
    rw [processFinds]
    omega
  | cons p rest ih =>
    intro st hb
    obtain ⟨next_obj, next_off⟩ := p
    rw [processFinds]
    by_cases hfired : timeoutOn ∧ toracle st.tchecks = true
    · rw [if_pos hfired]
      by_cases ht : timeoutOn = true <;> simp [ht] <;> omega
    · rw [if_neg hfired]
      by_cases hseen : next_obj ∈ (if timeoutOn then { st with tchecks := st.tchecks + 1 } else st).vertices
      · rw [if_pos hseen]
        have := ih ({ (if timeoutOn then { st with tchecks := st.tchecks + 1 } else st) with
          edges := (if timeoutOn then { st with tchecks := st.tchecks + 1 } else st).edges ++ [((next_obj, cur), next_off)] })
        by_cases ht : timeoutOn = true <;>
          simp [ht] at this ⊢ <;> omega
      · rw [if_neg hseen]
        by_cases hbound : mv > 0 ∧ mv ≤ ((((if timeoutOn then { st with tchecks := st.tchecks + 1 } else st).vertices) ++ [next_obj]).length : Int)
        · rw [if_pos hbound]
          by_cases ht : timeoutOn = true <;> simp [ht] <;> omega
        · exfalso
          refine hbound ⟨by omega, ?_⟩
          by_cases ht : timeoutOn = true <;> simp [ht] <;> omega

/-- Below the bound, one referrer's scan never pushes the vertex count past
the bound: the addition reaching it stops the scan. -/
theorem processFinds_below_bound (hmv : 1 ≤ mv) :
    ∀ (rs : List (Nat × Nat)) (st : BfsState),
      (st.vertices.length : Int) < mv →
      ((processFinds toracle timeoutOn mv cur rs st).vertices.length : Int) ≤ mv := by
  intro rs
  induction rs with
  | nil =>
    intro st h
    rw [processFinds]
    omega
  | cons p rest ih =>
    intro st hb
    obtain ⟨next_obj, next_off⟩ := p
    rw [processFinds]
    by_cases hfired : timeoutOn ∧ toracle st.tchecks = true
    · rw [if_pos hfired]
      by_cases ht : timeoutOn = true <;> simp [ht] <;> omega
    · rw [if_neg hfired]
      by_cases hseen : next_obj ∈ (if timeoutOn then { st with tchecks := st.tchecks + 1 } else st).vertices
      · rw [if_pos hseen]
        have := ih ({ (if timeoutOn then { st with tchecks := st.tchecks + 1 } else st) with
          edges := (if timeoutOn then { st with tchecks := st.tchecks + 1 } else st).edges ++ [((next_obj, cur), next_off)] })
        by_cases ht : timeoutOn = true <;>
          simp [ht] at this ⊢ <;> omega
      · rw [if_neg hseen]
        by_cases hbound : mv > 0 ∧ mv ≤ ((((if timeoutOn then { st with tchecks := st.tchecks + 1 } else st).vertices) ++ [next_obj]).length : Int)
        · rw [if_pos hbound]
          by_cases ht : timeoutOn = true <;> simp [ht] <;> omega
        · rw [if_neg hbound]
          have := ih ({ (if timeoutOn then { st with tchecks := st.tchecks + 1 } else st) with
            edges := (if timeoutOn then { st with tchecks := st.tchecks + 1 } else st).edges ++ [((next_obj, cur), next_off)],
            vertices := (if timeoutOn then { st with tchecks := st.tchecks + 1 } else st).vertices ++ [next_obj],
            next_objects := (if timeoutOn then { st with tchecks := st.tchecks + 1 } else st).next_objects ++ [next_obj] })
          by_cases ht : timeoutOn = true <;>
            simp [ht] at this hbound ⊢ <;> omega

/-- The scan re-establishes the stopped/below-bound invariant: when it
leaves `stop` clear, the vertex count is still below the bound. -/
theorem processFinds_inv (hmv : 1 ≤ mv) :
    ∀ (rs : List (Nat × Nat)) (st : BfsState),
      (st.stop = false → (st.vertices.length : Int) < mv) →
      ((processFinds toracle timeoutOn mv cur rs st).stop = false →
        ((processFinds toracle timeoutOn mv cur rs st).vertices.length : Int) < mv) := by
  intro rs
  induction rs with
  | nil =>
    intro st h
    rw [processFinds]
    exact h
  | cons p rest ih =>
    intro st hP
    obtain ⟨next_obj, next_off⟩ := p
    rw [processFinds]
    by_cases hfired : timeoutOn ∧ toracle st.tchecks = true
    · rw [if_pos hfired]
      by_cases ht : timeoutOn = true <;> simp [ht]
    · rw [if_neg hfired]
      by_cases hseen : next_obj ∈ (if timeoutOn then { st with tchecks := st.tchecks + 1 } else st).vertices
      · rw [if_pos hseen]
        refine ih _ ?_
        by_cases ht : timeoutOn = true <;> simp [ht] <;>
          intro hx <;> have := hP hx <;> omega
      · rw [if_neg hseen]
        by_cases hbound : mv > 0 ∧ mv ≤ ((((if timeoutOn then { st with tchecks := st.tchecks + 1 } else st).vertices) ++ [next_obj]).length : Int)
        · rw [if_pos hbound]
          by_cases ht : timeoutOn = true <;> simp [ht]
        · rw [if_neg hbound]
          refine ih _ ?_
          by_cases ht : timeoutOn = true <;> simp [ht] at hbound ⊢ <;>
            intro _hx <;> omega

end ObjectGraph

section ObjectGraphLevel

variable (find : Nat → List (Nat × Nat)) (toracle : Nat → Bool)
variable (timeoutOn : Bool) (mv : Int)

theorem processLevel_len_mono :
    ∀ (cur : List Nat) (st : BfsState),
      st.vertices.length ≤
        (processLevel find toracle timeoutOn mv cur st).vertices.length := by
  intro cur
  induction cur with
  | nil => intro st; rw [processLevel]
  | cons o rest ih =>
    intro st
    rw [processLevel]
    exact le_trans (processFinds_len_mono toracle timeoutOn mv o (find o) st)
      (ih _)

theorem processLevel_pairing :
    ∀ (cur : List Nat) (st : BfsState),
      (processLevel find toracle timeoutOn mv cur st).next_objects.length +
        st.vertices.length =
      (processLevel find toracle timeoutOn mv cur st).vertices.length +
        st.next_objects.length := by
  intro cur
  induction cur with
  | nil => intro st; rw [processLevel]; omega
  | cons o rest ih =>
    intro st
    rw [processLevel]
    have h1 := processFinds_pairing toracle timeoutOn mv o (find o) st
    have h2 := ih (processFinds toracle timeoutOn mv o (find o) st)
    omega

theorem processLevel_inv (hmv : 1 ≤ mv) :
    ∀ (cur : List Nat) (st : BfsState),
      (st.stop = false → (st.vertices.length : Int) < mv) →
      ((processLevel find toracle timeoutOn mv cur st).stop = false →
        ((processLevel find toracle timeoutOn mv cur st).vertices.length : Int) < mv) := by
  intro cur
  induction cur with
  | nil => intro st h; rw [processLevel]; exact h
  | cons o rest ih =>
    intro st hP
    rw [processLevel]
    exact ih _ (processFinds_inv toracle timeoutOn mv o hmv (find o) st hP)

/-- Once the bound has been reached, a level adds at most one vertex per
remaining referrer. -/
theorem processLevel_after_bound (hmv : 1 ≤ mv) :
    ∀ (cur : List Nat) (st : BfsState),
      mv ≤ (st.vertices.length : Int) + 1 →
      ((processLevel find toracle timeoutOn mv cur st).vertices.length : Int) ≤
        (st.vertices.length : Int) + cur.length := by
  intro cur
  induction cur with
  | nil =>
    intro st _h
    rw [processLevel]
    simp
  | cons o rest ih =>
    intro st hb
    rw [processLevel]
    have h1 := processFinds_after_bound toracle timeoutOn mv o hmv (find o) st hb
    have h2 := processFinds_len_mono toracle timeoutOn mv o (find o) st
    have h3 := ih (processFinds toracle timeoutOn mv o (find o) st) (by omega)
    simp only [List.length_cons]
    omega

/-- A level started strictly below the bound collects at most
`mv - 1 + L` vertices, `L` the number of referrers in the level. -/
theorem processLevel_bound (hmv : 1 ≤ mv) :
    ∀ (cur : List Nat) (st : BfsState),
      (st.vertices.length : Int) ≤ mv - 1 →
      ((processLevel find toracle timeoutOn mv cur st).vertices.length : Int) ≤
        mv - 1 + cur.length := by
  intro cur
  induction cur with
  | nil =>
    intro st h
    rw [processLevel]
    simpa using h
  | cons o rest ih =>
    intro st hb
    rw [processLevel]
    have h1 := processFinds_below_bound toracle timeoutOn mv o hmv (find o) st
      (by omega)
    by_cases hcase : ((processFinds toracle timeoutOn mv o (find o) st).vertices.length : Int) ≤ mv - 1
    · have h3 := ih (processFinds toracle timeoutOn mv o (find o) st) hcase
      simp only [List.length_cons]
      omega
    · have h3 := processLevel_after_bound find toracle timeoutOn mv hmv rest
        (processFinds toracle timeoutOn mv o (find o) st) (by omega)
      simp only [List.length_cons]
      omega

/-- Invariant bound through the BFS level loop: the traversal never
collects more than `mv - 1 + max 1 (mv - 1)` vertices. -/
theorem bfsLoop_bound (md ts : Int) (hmv : 1 ≤ mv) :
    ∀ (fuel depth : Nat) (cur : List Nat) (st : BfsState),
      (st.stop = false → (st.vertices.length : Int) < mv) →
      st.next_objects = [] →
      (st.stop = false → (cur.length : Int) ≤ max 1 (mv - 1)) →
      (st.vertices.length : Int) ≤ mv - 1 + max 1 (mv - 1) →
      ((bfsLoop find toracle md mv ts fuel depth cur st).vertices.length : Int) ≤
        mv - 1 + max 1 (mv - 1) := by
  intro fuel
  induction fuel with
  | zero =>
    intro depth cur st _h1 _h2 _h3 h4
    rw [bfsLoop]
    exact h4
  | succ fuel ih =>
    intro depth cur st hP hnext hcur hlen
    rw [bfsLoop]
    by_cases hstop : st.stop = true
    · rw [if_pos hstop]
      exact hlen
    · rw [if_neg hstop]
      simp only [gt_iff_lt]
      have hstopf : st.stop = false := by
        cases h : st.stop
        · rfl
        · exact absurd h hstop
      have hlt : (st.vertices.length : Int) ≤ mv - 1 := by
        have := hP hstopf
        omega
      have hlev := processLevel_bound find toracle (decide (0 < ts)) mv hmv cur st hlt
      have hcurb := hcur hstopf
      have hlev2 : ((processLevel find toracle (decide (0 < ts)) mv cur st).vertices.length : Int) ≤
          mv - 1 + max 1 (mv - 1) := by
        have := hlev
        omega
      by_cases hdep : 0 < md ∧ ((depth + 1 : Nat) : Int) = md
      · rw [if_pos hdep]
        exact hlev2
      · rw [if_neg hdep]
        have hinv := processLevel_inv find toracle (decide (0 < ts)) mv hmv cur st hP
        have hpair := processLevel_pairing find toracle (decide (0 < ts)) mv cur st
        refine ih (depth + 1) _ _ ?_ rfl ?_ hlev2
        · intro hx
          simp only [] at hx
          exact hinv hx
        · intro hx
          simp only [] at hx
          have hlen2 := hinv hx
          rw [hnext] at hpair
          simp at hpair
          omega

end ObjectGraphLevel

/-- Counterexample to C6 as stated: with `max_vertices = 1` (and
`max_depth = 5`, no timeout), a single referrer of the root already yields a
returned graph with 2 vertices — the traversal stops only after adding the
vertex that reaches the bound, and `_do_generate_object_graph` afterwards
adds the root unconditionally. -/
theorem object_graph_bound_counterexample :
    (graphVertices (fun a => if a = 100 then [(200, 0)] else [])
      (fun _ => false) 5 1 (-1) 10 100).length = 2 ∧
    ¬ ((graphVertices (fun a => if a = 100 then [(200, 0)] else [])
      (fun _ => false) 5 1 (-1) 10 100).length ≤ 1) := by
  constructor <;> decide

/-- Amended C6: with a finite `max_vertices = mv ≥ 1` (any `max_depth`,
any timeout behaviour), the bound is enforced per added vertex but a break
only leaves the current referrer's scan and the root is appended after the
traversal, so the returned graph holds at most
`max (mv + 1) (2 * mv - 1)` vertices (at most one extra vertex per
same-level referrer pending when the bound is hit, plus the root). -/
theorem object_graph_vertex_bound (find : Nat → List (Nat × Nat))
    (toracle : Nat → Bool) (md mv ts : Int) (fuel address : Nat)
    (hmv : 1 ≤ mv) :
    ((graphVertices find toracle md mv ts fuel address).length : Int) ≤
      max (mv + 1) (2 * mv - 1) := by
  have h := bfsLoop_bound find toracle mv md ts hmv fuel 0 [address]
    ⟨[], [], [], false, 0⟩
    (fun _ => by simp; omega)
    rfl
    (fun _ => by
      simp only [List.length_cons, List.length_nil]
      push_cast
      omega)
    (by simp; omega)
  simp only [graphVertices, traverseObjectGraph]
  by_cases hmem : address ∈
      (bfsLoop find toracle md mv ts fuel 0 [address] ⟨[], [], [], false, 0⟩).vertices
  · rw [if_pos hmem]
    omega
  · rw [if_neg hmem]
    simp only [List.length_append, List.length_cons, List.length_nil]
    push_cast
    omega

/-- Witness for the amended C6 at `mv = 1` on the concrete one-referrer
instance: the returned graph has 2 vertices and `2 ≤ max 2 1`. -/
theorem object_graph_vertex_bound_witness :
    ((graphVertices (fun a => if a = 100 then [(200, 0)] else [])
      (fun _ => false) 5 1 (-1) 10 100).length : Int) ≤
      max (1 + 1) (2 * 1 - 1) :=
  object_graph_vertex_bound (fun a => if a = 100 then [(200, 0)] else [])
    (fun _ => false) 5 1 (-1) 10 100 (by norm_num)

end ScyllaGdb
